import Mathlib

/-!
# Shallow embedding of `npio.h`

This file embeds the core of the numpy-file codec `npio.h` (struct
`npio_Array`, the header mini-parser `npio_ph_*`, the prelude codec,
the load paths `npio_load_header_mem4` / `npio_load_header_fd_read_` /
`npio_load_data2` / `npio_load_mem4`, the byte swapper, and the save
path `npio_save_header_mem` / `npio_save_fd`) and proves or refutes the
frozen specification claims about it.

Modelling conventions:
* bytes are `Nat` values `< 256`; buffers are `List Nat`;
* `size_t` arithmetic is `Nat` arithmetic reduced `% 2^64` where the C
  code can wrap; `char` is signed (the x86-64 SysV ABI targeted by the
  header via `__BYTE_ORDER__`), so bytes read through `char*` are
  sign-extended, modelled by `toSChar`;
* `malloc` is assumed to succeed (the `ENOMEM` branches of the C code
  are unreachable in the model); freshly allocated bytes are
  *indeterminate* and modelled as `none : Option Nat`;
* functions that return `0` on success and an `errno`-style code on
  failure become `Except Nat`; a C execution that reads through an
  invalid pointer (e.g. `strlen(NULL)`) is modelled by the distinguished
  code `NPIO_FAULT`, and a computation whose value depends on
  indeterminate (uninitialized) memory by `NPIO_UNDEF`;
* the read side of a file descriptor is an explicit byte list plus the
  current `errno` value (`LoadEnv`): `read(fd, p, n)` delivers
  `min n available` bytes and leaves `errno` unchanged on a short read
  at end of file, exactly the POSIX behaviour the C code is exposed to.
-/

set_option autoImplicit false
set_option maxRecDepth 100000

deriving instance DecidableEq for Except

/-- Linux error code `EINVAL` (22). -/
def EINVAL : Nat := 22

/-- Linux error code `ENOTSUP` (95). -/
def ENOTSUP : Nat := 95

/-- Linux error code `ERANGE` (34). -/
def ERANGE : Nat := 34

/-- Model marker: the C program dereferences an invalid pointer here. -/
def NPIO_FAULT : Nat := 1001

/-- Model marker: the value the C program computes here depends on
indeterminate (uninitialized) memory. -/
def NPIO_UNDEF : Nat := 1002

/-- Model marker: parser fuel exhausted (never happens for the fuel the
top-level entry points supply, which exceeds the input length). -/
def NPIO_FUEL : Nat := 1003

/-- Number of values representable in a `size_t` (64-bit). -/
def SZ : Nat := 2 ^ 64

/-- Sign extension of a byte read through a (signed) `char`. -/
def toSChar (b : Nat) : Int :=
  if b < 128 then (b : Int) else (b : Int) - 256

/-- Conversion of a C `int` value to `size_t` (two-complement wrap). -/
def intToSize (i : Int) : Nat :=
  (i % (SZ : Int)).toNat

/-- C `isspace` on the default locale, for byte values. -/
def isSpaceByte (c : Nat) : Bool :=
  c == 32 || (9 ≤ c && c ≤ 13)

/-- C `npio_ph_is_quote_`: single or double quote. -/
def npio_ph_is_quote_ (c : Nat) : Bool :=
  c == 39 || c == 34

/--
The fields of `npio_Array` that the header parser reads and writes
(public fields plus `_shape_capacity`, which steers `realloc` in
`npio_ph_shape_append_`).  `shapeBuf` is the allocated `shape` buffer:
its length is the allocated capacity and a cell is `none` while the C
cell is still uninitialized `malloc` memory.  `size` is `none` when the
C field was computed from uninitialized cells.
-/
structure NpioHeader where
  major_version : Int := 1
  minor_version : Int := 0
  header_len : Nat := 0
  dtype : Option (List Nat) := none
  dim : Nat := 0
  shapeBuf : List (Option Nat) := []
  shapeCapacity : Nat := 0
  size : Option Nat := some 0
  fortran_order : Nat := 0
  little_endian : Nat := 1
  floating_point : Nat := 1
  is_signed : Nat := 1
  bit_width : Nat := 32
  deriving Repr, DecidableEq

/--
The embedded `npio_Array`.  `data` is the payload region: `none` models
a null pointer, and each byte is itself `Option Nat` (`none` = the C
byte is uninitialized heap memory).  The private fields `_hdr_buf`,
`_malloced`, `_opened` and `_fd` are bookkeeping for `free`/`close` and
do not influence any claim, so they are not tracked; the descriptor the
non-mapped data path reads from is part of `LoadEnv` instead.
-/
structure NpioArray where
  hdr : NpioHeader := {}
  data : Option (List (Option Nat)) := none
  _mmapped : Bool := false
  _buf : List Nat := []
  _buf_size : Nat := 0
  deriving Repr, DecidableEq

/-- C `npio_init_array` (the parameter is the host endianness, which the
C code bakes in at compile time via `__BYTE_ORDER__`). -/
def npio_init_array (hostLittle : Bool) : NpioArray :=
  { hdr := { little_endian := if hostLittle then 1 else 0 } }

/-- Product of a list of possibly-indeterminate `size_t` cells, with the
64-bit wrap of the C multiplication; `none` as soon as an uninitialized
cell participates. -/
def optProd : List (Option Nat) → Option Nat
  | [] => some 1
  | none :: _ => none
  | some v :: t => (optProd t).map (fun n => (v * n) % SZ)

/-- C `npio_array_size`: product of the first `dim` cells of `shape`. -/
def npio_array_size (h : NpioHeader) : Option Nat :=
  optProd (h.shapeBuf.take h.dim)

/-- C `npio_array_memsize`: `npio_array_size(array) * bit_width / 8`
in `size_t` arithmetic. -/
def npio_array_memsize (h : NpioHeader) : Option Nat :=
  (npio_array_size h).map (fun n => n * h.bit_width % SZ / 8)

/-- C `npio_ph_skip_spaces_`. -/
def npio_ph_skip_spaces_ : List Nat → List Nat
  | [] => []
  | c :: r => if isSpaceByte c then npio_ph_skip_spaces_ r else c :: r

/-- The digit scan of `npio_ph_parse_shape_`: longest prefix of decimal
digits, and the rest. -/
def scanDigits : List Nat → List Nat × List Nat
  | [] => ([], [])
  | c :: r =>
    if 48 ≤ c ∧ c ≤ 57 then
      let p := scanDigits r
      (c :: p.1, p.2)
    else ([], c :: r)

/-- The digit-accumulation loop of `npio_ph_parse_shape_`:
`val = (*nbeg++ - 48) + val * 10` in `size_t` arithmetic. -/
def digitsVal (ds : List Nat) : Nat :=
  ds.foldl (fun acc d => (acc * 10 + (d - 48)) % SZ) 0

/-- C `npio_ph_shape_append_` (the `ENOMEM` branch is dropped: `realloc`
succeeds in the model).  `realloc` doubles the capacity and leaves the
new cells uninitialized.  Note that the write `shape[dim++] = val` is
in bounds only when `dim ≤ capacity` on entry; the C code corrupts the
heap otherwise (see the C5 analysis), which a `List.set` out of range
silently drops. -/
def npio_ph_shape_append_ (h : NpioHeader) (val : Nat) : NpioHeader :=
  let h :=
    if h.dim == h.shapeCapacity then
      { h with shapeCapacity := 2 * h.shapeCapacity
               shapeBuf := h.shapeBuf ++ List.replicate h.shapeCapacity none }
    else h
  { h with shapeBuf := h.shapeBuf.set h.dim (some val), dim := h.dim + 1 }

/-- The scanning loop of `npio_ph_parse_shape_`.  One fuel unit per
iteration; every iteration past the first consumes at least the
separating comma, so fuel `length + 1` never runs out. -/
def parseShapeLoop : Nat → NpioHeader → List Nat → Except Nat (NpioHeader × List Nat)
  | 0, _, _ => .error NPIO_FUEL
  | f + 1, h, l =>
    match scanDigits (npio_ph_skip_spaces_ l) with
    | (_, []) => .error EINVAL
    | (ds, p2) =>
      let h1 := if ds = [] then h else npio_ph_shape_append_ h (digitsVal ds)
      match npio_ph_skip_spaces_ p2 with
      | [] => .error EINVAL
      | c :: r =>
        if c = 44 then parseShapeLoop f h1 r
        else if c = 41 then .ok (h1, r)
        else .error EINVAL

/-- C `npio_ph_parse_shape_`: `'('`, the scanning loop, and on success
the recomputation `array->size = npio_array_size(array)`.  Faithful to
the C bug that `array->dim` is *not* reset when the buffer is freshly
allocated, so a second `shape` key appends after the first tuple's
length (claim C5). -/
def npio_ph_parse_shape_ (h : NpioHeader) (l : List Nat) : Except Nat (NpioHeader × List Nat) :=
  match l with
  | [] => .error EINVAL
  | c :: r =>
    if c ≠ 40 then .error EINVAL
    else
      match parseShapeLoop (r.length + 1)
          { h with shapeCapacity := 8, shapeBuf := List.replicate 8 none } r with
      | .error e => .error e
      | .ok (h2, rest) => .ok ({ h2 with size := npio_array_size h2 }, rest)

/-- C `strlen` on the stored dtype bytes (the C code appends a NUL
after the scanned bytes, so `strlen` counts up to the first NUL among
them, or all of them). -/
def strlenB (l : List Nat) : Nat :=
  (l.takeWhile (fun c => c ≠ 0)).length

/-- C `npio_ph_parse_dtype_`.  `dtype == NULL` (no `descr` key was ever
parsed) makes the C code call `strlen(NULL)`: modelled as `NPIO_FAULT`. -/
def npio_ph_parse_dtype_ (h : NpioHeader) : Except Nat NpioHeader :=
  match h.dtype with
  | none => .error NPIO_FAULT
  | some d =>
    if strlenB d ≠ 3 then .error ENOTSUP
    else
      let c0 := d.getD 0 0
      let c1 := d.getD 1 0
      let c2 := d.getD 2 0
      if c0 = 60 ∨ c0 = 62 then
        let h := { h with little_endian := if c0 = 60 then 1 else 0 }
        if c1 = 105 ∨ c1 = 117 ∨ c1 = 102 then
          let h := { h with is_signed := if c1 = 117 then 0 else 1
                            floating_point := if c1 = 102 then 1 else 0 }
          if c2 = 49 then .ok { h with bit_width := 8 }
          else if c2 = 50 then .ok { h with bit_width := 16 }
          else if c2 = 52 then .ok { h with bit_width := 32 }
          else if c2 = 56 then .ok { h with bit_width := 64 }
          else .error ENOTSUP
        else .error ENOTSUP
      else .error ENOTSUP

/-- The three keys `npio_ph_parse_dict_` recognizes. -/
inductive NpioKey where
  | descr
  | shape
  | fortran
  deriving Repr, DecidableEq

/-- The byte string `descr`. -/
def descrKeyB : List Nat := [100, 101, 115, 99, 114]

/-- The byte string `shape`. -/
def shapeKeyB : List Nat := [115, 104, 97, 112, 101]

/-- The byte string `fortran_order`. -/
def fortranKeyB : List Nat := [102, 111, 114, 116, 114, 97, 110, 95, 111, 114, 100, 101, 114]

/-- The byte string `True`. -/
def trueLitB : List Nat := [84, 114, 117, 101]

/-- The byte string `False`. -/
def falseLitB : List Nat := [70, 97, 108, 115, 101]

/-- Key dispatch of `npio_ph_parse_dict_`, from the byte after the open
quote.  The C guards are `p + 5 < end && memcmp(p, "descr", 5) == 0`
etc., i.e. *strictly more* than the key length must remain. -/
def npioKeyOf (r : List Nat) : Option (NpioKey × List Nat) :=
  if 5 < r.length ∧ r.take 5 = descrKeyB then some (.descr, r.drop 5)
  else if 5 < r.length ∧ r.take 5 = shapeKeyB then some (.shape, r.drop 5)
  else if 13 < r.length ∧ r.take 13 = fortranKeyB then some (.fortran, r.drop 13)
  else none

/-- Scan of the `descr` value: bytes up to the closing quote `q`, and
the rest (starting with `q` when the quote was found). -/
def spanNotByte (q : Nat) : List Nat → List Nat × List Nat
  | [] => ([], [])
  | c :: r =>
    if c = q then ([], c :: r)
    else
      let p := spanNotByte q r
      (c :: p.1, p.2)

/-- After a `key: value` pair: skip spaces, fail at end of region, and
consume a separating comma if present. -/
def npioAfterValue (h : NpioHeader) (l : List Nat) : Except Nat (NpioHeader × List Nat) :=
  match npio_ph_skip_spaces_ l with
  | [] => .error EINVAL
  | c :: r => if c = 44 then .ok (h, r) else .ok (h, c :: r)

/-- One `key: value` pair of `npio_ph_parse_dict_`, from the byte after
the key name: closing quote `q`, colon, the value (dispatched on the
key), and the trailing comma handling. -/
def npioProcessPair (h : NpioHeader) (q : Nat) (k : NpioKey) (l : List Nat) :
    Except Nat (NpioHeader × List Nat) :=
  match l with
  | [] => .error EINVAL
  | cq :: l1 =>
    if cq ≠ q then .error EINVAL
    else
      match npio_ph_skip_spaces_ l1 with
      | [] => .error EINVAL
      | cc :: l2 =>
        if cc ≠ 58 then .error EINVAL
        else
          match k with
          | .descr =>
            match npio_ph_skip_spaces_ l2 with
            | [] => .error EINVAL
            | vq :: l3 =>
              if npio_ph_is_quote_ vq = false then .error EINVAL
              else
                match spanNotByte vq l3 with
                | (_, []) => .error EINVAL
                | (dt, _ :: l4) => npioAfterValue { h with dtype := some dt } l4
          | .fortran =>
            let l3 := npio_ph_skip_spaces_ l2
            if l3 = [] then .error EINVAL
            else if 4 < l3.length ∧ l3.take 4 = trueLitB then
              npioAfterValue { h with fortran_order := 1 } (l3.drop 4)
            else if 5 < l3.length ∧ l3.take 5 = falseLitB then
              npioAfterValue { h with fortran_order := 0 } (l3.drop 5)
            else .error EINVAL
          | .shape =>
            let l3 := npio_ph_skip_spaces_ l2
            if l3 = [] then .error EINVAL
            else
              match npio_ph_parse_shape_ h l3 with
              | .error e => .error e
              | .ok (h2, l4) => npioAfterValue h2 l4

/-- The pair loop of `npio_ph_parse_dict_`.  One fuel unit per pair;
every pair consumes at least its opening quote, so fuel `length + 1`
never runs out. -/
def parseDictLoop : Nat → NpioHeader → List Nat → Except Nat NpioHeader
  | 0, _, _ => .error NPIO_FUEL
  | f + 1, h, l =>
    match npio_ph_skip_spaces_ l with
    | [] => .error EINVAL
    | c :: r =>
      if c = 125 then npio_ph_parse_dtype_ h
      else if npio_ph_is_quote_ c = false then .error EINVAL
      else
        match npioKeyOf r with
        | none => .error EINVAL
        | some (k, r1) =>
          match npioProcessPair h c k r1 with
          | .error e => .error e
          | .ok (h1, l1) => parseDictLoop f h1 l1

/-- C `npio_ph_parse_dict_`: `{`, the pair loop, and (inside the loop,
when `}` is reached) the final `npio_ph_parse_dtype_`. -/
def npio_ph_parse_dict_ (h : NpioHeader) (l : List Nat) : Except Nat NpioHeader :=
  match l with
  | [] => .error EINVAL
  | c :: r =>
    if c ≠ 123 then .error EINVAL
    else parseDictLoop (r.length + 1) h r

/-- The 6-byte magic `\x93NUMPY`. -/
def npioMagic : List Nat := [147, 78, 85, 77, 80, 89]

/-- C `npio_load_header_prelude_`.  Returns the updated header and the
number of bytes consumed (10 for major version 1, 12 for major 2).
The length field is read through `char*`, hence `toSChar`: length
bytes with the high bit set are sign-extended before the `size_t`
conversion (claim C3).  Callers guarantee at least 10 resp. 12 bytes;
shorter inputs would be out-of-bounds reads (`NPIO_FAULT`). -/
def npio_load_header_prelude_ (l : List Nat) (h : NpioHeader) :
    Except Nat (NpioHeader × Nat) :=
  if l.take 6 ≠ npioMagic then .error EINVAL
  else if l.length < 10 then .error NPIO_FAULT
  else
    let maj := toSChar (l.getD 6 0)
    let h := { h with major_version := maj, minor_version := toSChar (l.getD 7 0) }
    if maj = 1 then
      let hl := intToSize (toSChar (l.getD 8 0) + toSChar (l.getD 9 0) * 256)
      .ok ({ h with header_len := hl }, 10)
    else if maj = 2 then
      if l.length < 12 then .error NPIO_FAULT
      else
        let hl := intToSize (toSChar (l.getD 8 0) + toSChar (l.getD 9 0) * 256
          + toSChar (l.getD 10 0) * 65536 + toSChar (l.getD 11 0) * 16777216)
        .ok ({ h with header_len := hl }, 12)
    else .error ENOTSUP

/-- C `npio_load_header_mem4`.  The `max_dim` argument is accepted and
never used, exactly as in the C code (claim C10). -/
def npio_load_header_mem4 (l : List Nat) (a : NpioArray) (max_dim : Nat) :
    Except Nat NpioArray :=
  if l.length < 16 then .error EINVAL
  else
    let a := if a._mmapped then a else { a with _buf := l, _buf_size := l.length }
    match npio_load_header_prelude_ l a.hdr with
    | .error e => .error e
    | .ok (h, c) =>
      let rest := l.drop c
      let region := if h.header_len < rest.length then rest.take h.header_len else rest
      match npio_ph_parse_dict_ h region with
      | .error e => .error e
      | .ok h1 => .ok { a with hdr := h1 }

/-- C `npio_load_header_mem` (default `max_dim`). -/
def npio_load_header_mem (l : List Nat) (a : NpioArray) : Except Nat NpioArray :=
  npio_load_header_mem4 l a 32

/--
C `npio_load_header_fd_read_`, the buffered fallback strategy.
`l` is the byte stream the descriptor delivers, `errnoV` the ambient
`errno` value, `uninit` the indeterminate contents `malloc` leaves in
the header buffer beyond what the second `read` delivered.

Faithful quirks of the C code, all load-bearing for claim C2:
* a short first read returns the *current* `errno` — which is `0`
  (i.e. success) when the stream simply ended early;
* `header_len > 1024 + max_dim * 20` is rejected with `ERANGE`
  (the mapped strategy has no such check); `max_dim` is a `size_t`, so
  the cap itself is computed in wrapping 64-bit arithmetic;
* the `end` pointer passed to `npio_ph_parse_dict_` is a dangling
  pointer into the on-stack `prelude[12]` buffer.  On the targeted
  platforms the heap lies below the stack, so the comparison `p < end`
  stays true throughout the allocated header buffer: the effective
  parse region extends to the end of the `12 + header_len` byte
  allocation (2 bytes past the declared header for version-1 files);
* the result of the second `read` is never checked, so a short file
  leaves uninitialized bytes in the parse region.
-/
def npio_load_header_fd_read_ (l : List Nat) (a : NpioArray) (max_dim : Nat)
    (errnoV : Nat) (uninit : List Nat) : Except Nat NpioArray :=
  if l.length < 12 then
    if errnoV = 0 then .ok a else .error errnoV
  else
    let pre := l.take 12
    match npio_load_header_prelude_ pre a.hdr with
    | .error e => .error e
    | .ok (h, c) =>
      if (1024 + max_dim * 20) % SZ < h.header_len then .error ERANGE
      else
        let got := (l.drop 12).take h.header_len
        let hdr_buf := pre ++ got ++ uninit.take (h.header_len - got.length)
        match npio_ph_parse_dict_ h (hdr_buf.drop c) with
        | .error e => .error e
        | .ok h1 => .ok { a with hdr := h1 }

/-- C `npio_load_header_fd3` in its successful-`mmap` branch: the file
is mapped, `_mmapped`/`_buf`/`_buf_size` are set, then the mapped-memory
header loader runs. -/
def npio_load_header_fd3_mapped (l : List Nat) (a : NpioArray) (max_dim : Nat) :
    Except Nat NpioArray :=
  npio_load_header_mem4 l
    { a with _mmapped := true, _buf := l, _buf_size := l.length } max_dim

/-- Reverse each of the first `n` chunks of `w8` bytes, in place: the
effect of the element-wise byte swaps in `npio_swap_bytes`. -/
def swapChunks (w8 : Nat) : Nat → List (Option Nat) → List (Option Nat)
  | 0, l => l
  | n + 1, l => (l.take w8).reverse ++ swapChunks w8 n (l.drop w8)

/-- C `npio_swap_bytes`. -/
def npio_swap_bytes (n : Nat) (bit_width : Nat) (d : List (Option Nat)) :
    Except Nat (List (Option Nat)) :=
  if bit_width = 8 then .ok d
  else if bit_width = 16 ∨ bit_width = 32 ∨ bit_width = 64 then
    .ok (swapChunks (bit_width / 8) n d)
  else .error ENOTSUP

/-- The ambient I/O state the non-mapped data path reads from: the bytes
the descriptor will deliver next, and the current `errno` value. -/
structure LoadEnv where
  fdBytes : List Nat := []
  errnoV : Nat := 0
  deriving Repr, DecidableEq

/-- The tail of `npio_load_data2`: swap bytes if requested and the
recorded endianness differs from the host. -/
def npioFinishLoad (a : NpioArray) (swap : Bool) (hostLittle : Bool) :
    Except Nat NpioArray :=
  let host : Nat := if hostLittle then 1 else 0
  if swap ∧ host ≠ a.hdr.little_endian then
    match a.hdr.size, a.data with
    | some n, some d =>
      match npio_swap_bytes n a.hdr.bit_width d with
      | .error e => .error e
      | .ok d1 => .ok { a with data := some d1, hdr := { a.hdr with little_endian := host } }
    | _, _ => .error NPIO_UNDEF
  else .ok a

/-- The payload offset `header_len + 6 + (major == 1 ? 4 : 6)` computed
by `npio_load_data2`, in `size_t` arithmetic. -/
def npioDataOffset (h : NpioHeader) : Nat :=
  (h.header_len + 6 + (if h.major_version = 1 then 4 else 6)) % SZ

/--
C `npio_load_data2`.  The mapped strategy checks
`data_offset + npio_array_memsize(array) == _buf_size` (recomputing the
element count from the shape) and aliases the mapped region; the
buffered strategy computes `sz = size * bit_width / 8` from the *cached*
`size` field, allocates, and reads — and on a short read returns the
ambient `errno`, which is `0` at end of file (claim C7).
-/
def npio_load_data2 (a : NpioArray) (env : LoadEnv) (swap : Bool) (hostLittle : Bool) :
    Except Nat NpioArray :=
  let data_offset := npioDataOffset a.hdr
  if data_offset % 16 ≠ 0 then .error EINVAL
  else if a._mmapped then
    match npio_array_memsize a.hdr with
    | none => .error NPIO_UNDEF
    | some m =>
      if (data_offset + m) % SZ ≠ a._buf_size then .error EINVAL
      else
        npioFinishLoad
          { a with data := some (((a._buf.drop data_offset).take m).map some) }
          swap hostLittle
  else
    match a.hdr.size with
    | none => .error NPIO_UNDEF
    | some n =>
      let m := n * a.hdr.bit_width % SZ / 8
      if 2 ^ 63 ≤ m then .error ERANGE
      else
        let nr := min m env.fdBytes.length
        let filled := (env.fdBytes.take nr).map some ++ List.replicate (m - nr) none
        let a := { a with data := some filled }
        if nr ≠ m then
          if env.errnoV = 0 then .ok a else .error env.errnoV
        else npioFinishLoad a swap hostLittle

/-- C `npio_load_data`: always request the byte swap to host order. -/
def npio_load_data (a : NpioArray) (env : LoadEnv) (hostLittle : Bool) :
    Except Nat NpioArray :=
  npio_load_data2 a env true hostLittle

/-- C `npio_load_mem4`: header from the memory buffer, then
`npio_load_data` — which, because `_mmapped` is never set on this path,
takes the *buffered* branch and reads the payload from the descriptor
`_fd` (0 after `npio_init_array`) instead of from the buffer
(claim C1). -/
def npio_load_mem4 (l : List Nat) (a : NpioArray) (max_dim : Nat)
    (env : LoadEnv) (hostLittle : Bool) : Except Nat NpioArray :=
  match npio_load_header_mem4 l a max_dim with
  | .error e => .error e
  | .ok a1 => npio_load_data a1 env hostLittle

/-- C `npio_load_fd3` in the successful-`mmap` branch: mapped header
load followed by `npio_load_data`. -/
def npio_load_fd3_mapped (l : List Nat) (a : NpioArray) (max_dim : Nat)
    (env : LoadEnv) (hostLittle : Bool) : Except Nat NpioArray :=
  match npio_load_header_fd3_mapped l a max_dim with
  | .error e => .error e
  | .ok a1 => npio_load_data a1 env hostLittle

/-- Decimal digit bytes of `n`, most significant first (the effect of
`sprintf("%d"/"%ld")` for non-negative values).  Fuel-indexed for
structural recursion; fuel 24 covers every value below `10^24`, far
beyond the 64-bit values the code prints. -/
def natDList : Nat → Nat → List Nat
  | 0, _ => []
  | f + 1, n => if n < 10 then [48 + n] else natDList f (n / 10) ++ [48 + n % 10]

/-- Decimal digit bytes of `n` (`sprintf("%d", n)` for `n` within the
printable range). -/
def natDigits (n : Nat) : List Nat := natDList 24 n

/-- The bytes `sprintf("%ld", v)` emits for a `size_t` value `v`: `%ld`
reinterprets it as a *signed* long, so values at or above `2^63` are
printed as negative numbers (relevant to the round-trip claim C1). -/
def printfLd (v : Nat) : List Nat :=
  if v < 2 ^ 63 then natDigits v else 45 :: natDigits (SZ - v)

/-- The shape values the save path reads from the buffer, or `none` if
any participating cell is uninitialized memory. -/
def allSomeL : List (Option Nat) → Option (List Nat)
  | [] => some []
  | none :: _ => none
  | some v :: t => (allSomeL t).map (fun r => v :: r)

/-- The first `dim` cells of the shape buffer as definite values. -/
def shapeValsOf (h : NpioHeader) : Option (List Nat) :=
  allSomeL (h.shapeBuf.take h.dim)

/-- The bytes of `sprintf(hdr, "{\"descr\": \"%c%c%d\", ", ...)`:
open brace, quoted `descr` key, and the three-part dtype code built
from the *descriptor* fields (`little_endian ? '<' : '>'` — note: the
descriptor flag, not the host, cf. claim C9). -/
def descrChunk (h : NpioHeader) : List Nat :=
  [123, 34, 100, 101, 115, 99, 114, 34, 58, 32, 34]
    ++ [if h.little_endian ≠ 0 then 60 else 62]
    ++ [if h.floating_point ≠ 0 then 102 else if h.is_signed ≠ 0 then 105 else 117]
    ++ natDigits (h.bit_width / 8) ++ [34, 44, 32]

/-- The bytes of `sprintf(hdr, "\"fortran_order\": %s, ", ...)`. -/
def fortranChunk (h : NpioHeader) : List Nat :=
  [34, 102, 111, 114, 116, 114, 97, 110, 95, 111, 114, 100, 101, 114, 34, 58, 32]
    ++ (if h.fortran_order ≠ 0 then trueLitB else falseLitB) ++ [44, 32]

/-- The bytes of `sprintf(hdr, "\"shape\": (")`. -/
def shapeOpenChunk : List Nat := [34, 115, 104, 97, 112, 101, 34, 58, 32, 40]

/-- The per-dimension loop of `npio_save_header_mem`: emit
`snprintf("%ld, ", shape[i])` and fail with `ERANGE` once fewer than 4
bytes of the buffer remain (`hdr >= hdr_end - 3`).  `start` is the byte
position where the loop began (10 plus the prefix length). -/
def npioEntryLoop (sz start : Nat) : List Nat → List Nat → Except Nat (List Nat)
  | [], acc => .ok acc
  | v :: t, acc =>
    let acc1 := acc ++ printfLd v ++ [44, 32]
    if sz ≤ start + acc1.length + 3 then .error ERANGE
    else npioEntryLoop sz start t acc1

/--
C `npio_save_header_mem` over a destination buffer of `sz` bytes,
returning the emitted bytes on success.

Faithful details: the space padding loop runs while
`hdr < hdr_end && (hdr - hdr_end) % 16 != 0`, i.e. it pads the total
length up to `sz` *modulo 16* — the 16-byte alignment of the result
therefore depends on `sz % 16 == 0`, which `npio_save_fd` ensures with
its 65536-byte buffer but which is not true of every buffer
(claim C8).  The final byte is overwritten with a newline and the
2-byte little-endian `header_len` field is patched in. -/
def npio_save_header_mem (sz : Nat) (a : NpioArray) : Except Nat (List Nat) :=
  if sz < 64 then .error ERANGE
  else
    match shapeValsOf a.hdr with
    | none => .error NPIO_UNDEF
    | some sh =>
      let pre := descrChunk a.hdr ++ fortranChunk a.hdr ++ shapeOpenChunk
      match npioEntryLoop sz (10 + pre.length) sh [] with
      | .error e => .error e
      | .ok entries =>
        let body := pre ++ entries ++ [41, 125, 32]
        let pos := 10 + body.length
        let k := if pos < sz then (sz - pos) % 16 else 0
        if (pos + k) % 16 ≠ sz % 16 then .error ERANGE
        else
          let full := npioMagic ++ [1, 0, 0, 0] ++ body ++ List.replicate k 32
          let full := full.set (full.length - 1) 10
          let hlen := (pos + k) - 10
          .ok ((full.set 8 (hlen % 256)).set 9 (hlen / 256 % 256))

/-- The `m` payload bytes `npio_save_fd` writes out, straight from the
descriptor `data` pointer; `none` if the region is missing or partly
uninitialized. -/
def payloadOf (a : NpioArray) (m : Nat) : Option (List Nat) :=
  a.data.bind (fun d => if d.length < m then none else allSomeL (d.take m))

/-- C `npio_save_fd`: serialize the header into the 65536-byte stack
buffer, write it, then write the `npio_array_memsize` payload bytes
verbatim.  Writes are modelled as complete (the short-write `errno`
branches are not reachable in the model).  Returns the byte image of
the written file. -/
def npio_save_fd (a : NpioArray) : Except Nat (List Nat) :=
  match npio_save_header_mem 65536 a with
  | .error e => .error e
  | .ok hb =>
    match npio_array_memsize a.hdr with
    | none => .error NPIO_UNDEF
    | some m =>
      if 2 ^ 63 ≤ m then .error ERANGE
      else if m = 0 then .ok hb
      else
        match payloadOf a m with
        | none => .error NPIO_FAULT
        | some pb => .ok (hb ++ pb)

/-! ## Canonical header texts used by the claims -/

/-- Comma-separated decimal rendering of a tuple body (no spaces). -/
def tupBody : List Nat → List Nat
  | [] => []
  | [v] => natDigits v
  | v :: t => natDigits v ++ 44 :: tupBody t

/-- A parenthesized integer tuple literal. -/
def tupLit (t : List Nat) : List Nat := 40 :: (tupBody t ++ [41])

/-- A single-quoted `descr` pair with value bytes `v`. -/
def pairDescr (v : List Nat) : List Nat :=
  39 :: descrKeyB ++ [39, 58, 39] ++ v ++ [39]

/-- A single-quoted `fortran_order` pair. -/
def pairFortran (b : Bool) : List Nat :=
  39 :: fortranKeyB ++ [39, 58] ++ (if b then trueLitB else falseLitB)

/-- A single-quoted `shape` pair with tuple `t`. -/
def pairShape (t : List Nat) : List Nat :=
  39 :: shapeKeyB ++ [39, 58] ++ tupLit t

/-- A dictionary in which each of the three recognized keys occurs
twice: `descr` first with value `d1` then with `<i2`, `fortran_order`
first `True` then `False`, `shape` first tuple `t1` then tuple `t2`
(claim C5). -/
def twoShapeHdr (d1 t1 t2 : List Nat) : List Nat :=
  123 :: (pairDescr d1 ++ 44 :: (pairFortran true ++ 44 :: (pairShape t1 ++ 44 ::
    (pairDescr [60, 105, 50] ++ 44 :: (pairFortran false ++ 44 ::
      (pairShape t2 ++ [44, 125]))))))

/-! ## Concrete inputs for the claims -/

/-- A caller-built scalar descriptor: dtype `<u1`, empty shape, one
payload byte `7`. -/
def exC1arr : NpioArray :=
  { hdr := { dim := 0, shapeBuf := [], shapeCapacity := 0, little_endian := 1,
             floating_point := 0, is_signed := 0, bit_width := 8 },
    data := some [some 7] }

/-- The file image `npio_save_fd` produces for `exC1arr` (65 bytes:
a 64-byte prelude-plus-header and 1 payload byte). -/
def exC1file : List Nat :=
  match npio_save_fd exC1arr with
  | .ok f => f
  | .error _ => []

/-- The header text
`{'descr': '<f4', 'fortran_order': False, 'shape': (2, 3), }`. -/
def exDictB : List Nat :=
  [123, 39, 100, 101, 115, 99, 114, 39, 58, 32, 39, 60, 102, 52, 39, 44, 32, 39,
   102, 111, 114, 116, 114, 97, 110, 95, 111, 114, 100, 101, 114, 39, 58, 32, 70,
   97, 108, 115, 101, 44, 32, 39, 115, 104, 97, 112, 101, 39, 58, 32, 40, 50, 44,
   32, 51, 41, 44, 32, 125]

/-- A version-1 file whose prelude declares `header_len = 1793`
(`0x0701`) although only the 59-byte dictionary follows: the mapped
strategy clamps the parse region and succeeds, the buffered strategy
rejects the declared length with `ERANGE` (claim C2). -/
def exC2bytes : List Nat := npioMagic ++ [1, 0, 1, 7] ++ exDictB

/-- A version-1 file with `header_len = 59`, the 59-byte dictionary,
and 24 payload bytes: both header strategies succeed on it. -/
def exC2wbytes : List Nat :=
  npioMagic ++ [1, 0, 59, 0] ++ exDictB ++ List.replicate 24 0

/-- The dictionary
`{'shape':(7,),'shape':(5,2),'descr':'<f4','fortran_order':False}`
containing two `shape` entries (claim C5). -/
def exC5bytes : List Nat :=
  [123, 39, 115, 104, 97, 112, 101, 39, 58, 40, 55, 44, 41, 44, 39, 115, 104, 97,
   112, 101, 39, 58, 40, 53, 44, 50, 41, 44, 39, 100, 101, 115, 99, 114, 39, 58,
   39, 60, 102, 52, 39, 44, 39, 102, 111, 114, 116, 114, 97, 110, 95, 111, 114,
   100, 101, 114, 39, 58, 70, 97, 108, 115, 101, 125]

/-- A mapped descriptor declaring shape `(2,)` of 64-bit elements after
a 6-byte header (payload offset 16, payload 16 bytes) over a 40-byte
mapping: 8 trailing bytes remain, a size mismatch. -/
def exC6arr : NpioArray :=
  { hdr := { major_version := 1, header_len := 6, dim := 1, shapeBuf := [some 2],
             shapeCapacity := 1, bit_width := 64 },
    _mmapped := true, _buf := List.replicate 40 0, _buf_size := 40 }

/-- A non-mapped descriptor expecting `6 * 32 / 8 = 24` payload bytes
(header length 6, so the payload offset 16 is aligned). -/
def exC7arr : NpioArray :=
  { hdr := { major_version := 1, header_len := 6, size := some 6, bit_width := 32 } }

/-- A default-initialized scalar descriptor to serialize (claim C8). -/
def exC8arr : NpioArray := { hdr := { dim := 0, shapeBuf := [] } }

/-- A caller-built descriptor with `little_endian = 0` on a
little-endian host: dtype `>u2`, shape `(1,)`, payload bytes `1, 2`
(claim C9). -/
def exC9arr : NpioArray :=
  { hdr := { dim := 1, shapeBuf := [some 1], shapeCapacity := 1, little_endian := 0,
             floating_point := 0, is_signed := 0, bit_width := 16 },
    data := some [some 1, some 2] }

/-- The 82-byte file image `npio_save_fd` produces for `exC9arr`. -/
def exC9file : List Nat :=
  match npio_save_fd exC9arr with
  | .ok f => f
  | .error _ => []

/-- A 118-byte dictionary declaring a 33-dimensional shape
`(1,1,...,1)` (claim C10). -/
def exC10dict : List Nat :=
  [123, 39, 100, 101, 115, 99, 114, 39, 58, 32, 39, 60, 102, 52, 39, 44, 32, 39,
   102, 111, 114, 116, 114, 97, 110, 95, 111, 114, 100, 101, 114, 39, 58, 32, 70,
   97, 108, 115, 101, 44, 32, 39, 115, 104, 97, 112, 101, 39, 58, 32, 40, 49, 44,
   49, 44, 49, 44, 49, 44, 49, 44, 49, 44, 49, 44, 49, 44, 49, 44, 49, 44, 49, 44,
   49, 44, 49, 44, 49, 44, 49, 44, 49, 44, 49, 44, 49, 44, 49, 44, 49, 44, 49, 44,
   49, 44, 49, 44, 49, 44, 49, 44, 49, 44, 49, 44, 49, 44, 49, 44, 49, 44, 49, 44,
   49, 44, 49, 41, 125]

/-- A version-1 file image declaring the 33-dimensional header. -/
def exC10bytes : List Nat := npioMagic ++ [1, 0, 118, 0] ++ exC10dict

/-! ## Concrete claim evaluations -/

/-- C3: with the magic followed by major 1 and length bytes `0x00 0x80`,
the claimed decoding is `0 + 256 * 128 = 32768`, but the code reads the
length bytes through signed `char` and produces `2^64 - 32768`. -/
theorem C3_sign_extended_length :
    (npio_load_header_prelude_ (npioMagic ++ [1, 0, 0, 128]) {}).map
        (fun p => (p.1.header_len, p.2)) = .ok (2 ^ 64 - 32768, 10) ∧
      (2 ^ 64 - 32768 : Nat) ≠ 0 + 256 * 128 := by
  constructor
  · decide
  · decide

/-- C4: the malformed tuple text `(1,,2)` (an empty integer lexeme
between two commas) is *accepted* by `npio_ph_parse_shape_`, producing
the shape `[1, 2]`, although the claim demands a `SyntaxError`. -/
theorem C4_empty_lexeme_accepted :
    (npio_ph_parse_shape_ (npio_init_array true).hdr [40, 49, 44, 44, 50, 41]).map
      (fun p => (p.1.dim, p.1.shapeBuf.take p.1.dim, p.2)) = .ok (2, [some 1, some 2], []) := by
  decide

/-- C5 counterexample: a dictionary whose two `shape` entries are
`(7,)` and `(5,2)` yields `dim = 3` — the *sum* of the two tuple
lengths, with the first buffer cell left uninitialized — not the second
tuple `(5,2)` alone (which would have `dim = 2`). -/
theorem C5_second_shape_appends :
    (npio_ph_parse_dict_ (npio_init_array true).hdr exC5bytes).map
        (fun h => (h.dim, h.shapeBuf.take h.dim)) = .ok (3, [none, some 5, some 2]) ∧
      (3 : Nat) ≠ 2 := by
  constructor
  · decide
  · decide

/-- C7: a non-mapped load expecting 24 payload bytes that receives only
10 before end of file returns *success* (the C code returns `errno`,
which is still 0), with the heap buffer only partially filled — it does
not return the nonzero Truncated/IOError code the claim requires. -/
theorem C7_short_read_spurious_success :
    npio_load_data2 exC7arr { fdBytes := [0, 1, 2, 3, 4, 5, 6, 7, 8, 9], errnoV := 0 } true true
        = .ok { exC7arr with data := some ([0, 1, 2, 3, 4, 5, 6, 7, 8, 9].map some ++ List.replicate 14 none) } ∧
      (10 : Nat) ≠ 6 * 32 / 8 := by
  constructor
  · decide
  · decide

/-- C1: the scalar descriptor `exC1arr` (payload byte `7`) saves
successfully, but loading the produced bytes with `npio_load_mem4`
"succeeds" with a payload read from the descriptor's file descriptor
(empty here, `errno = 0`), leaving one uninitialized byte instead of
the buffer's payload byte `7`. -/
theorem C1_mem_load_ignores_buffer_payload :
    npio_save_fd exC1arr = .ok exC1file ∧ exC1file.length = 65 ∧
      exC1arr.data = some [some 7] ∧
      (npio_load_mem4 exC1file (npio_init_array true) 32 {} true).map (fun a => a.data)
        = .ok (some [none]) := by
  refine ⟨by decide, by decide, by decide, by decide⟩

/-- C2 counterexample: on `exC2bytes` (declared `header_len = 1793`,
far beyond the bytes present) the mapped strategy clamps the region and
succeeds with shape `(2, 3)`, while the buffered strategy rejects the
declared length with `ERANGE`: the two strategies do not produce
identical logical results on every input. -/
theorem C2_strategies_disagree :
    (npio_load_header_mem4 exC2bytes (npio_init_array true) 32).map
        (fun a => (a.hdr.dim, a.hdr.shapeBuf.take a.hdr.dim)) = .ok (2, [some 2, some 3]) ∧
      npio_load_header_fd_read_ exC2bytes (npio_init_array true) 32 0 [] = .error ERANGE := by
  constructor
  · decide
  · decide

/-- C8 counterexample: over a 65-byte destination buffer the serializer
succeeds, but the emitted prelude-plus-header region is 65 bytes long —
not a multiple of 16 (the padding loop aligns relative to the buffer
end, not to 16): the claimed invariant fails for buffers whose size is
not a multiple of 16. -/
theorem C8_padding_relative_to_buffer :
    (npio_save_header_mem 65 exC8arr).map (fun l => (l.length, l.length % 16))
      = .ok (65, 1) := by
  decide

/-- C9 counterexample: saving `exC9arr` (descriptor flag big-endian, on
a little-endian host) emits `>` (byte 62) as the endianness tag — the
descriptor's flag, not the host's — and reloading the produced file on
the same little-endian host therefore *does* swap: the loaded payload
is `[2, 1]`, not the saved bytes `[1, 2]`. -/
theorem C9_descr_tags_descriptor_not_host :
    npio_save_fd exC9arr = .ok exC9file ∧
      exC9file.get? 21 = some 62 ∧ (62 : Nat) ≠ 60 ∧
      exC9arr.data = some [some 1, some 2] ∧
      (npio_load_fd3_mapped exC9file (npio_init_array true) 32 {} true).map
        (fun a => (a.data, a.hdr.little_endian)) = .ok (some [some 2, some 1], 1) := by
  refine ⟨by decide, by decide, by decide, by decide, by decide⟩

/-- C10: `npio_load_header_mem4` never reads its `max_dim` argument, so
any two values give identical results, and a header declaring 33
dimensions (more than `NPIO_DEFAULT_MAX_DIM = 32`) is accepted by this
path even with `max_dim = 32`. -/
theorem C10_max_dim_has_no_effect :
    (∀ (l : List Nat) (a : NpioArray) (d1 d2 : Nat),
        npio_load_header_mem4 l a d1 = npio_load_header_mem4 l a d2) ∧
      (npio_load_header_mem4 exC10bytes (npio_init_array true) 32).map
        (fun a => (a.hdr.dim, a.hdr.size)) = .ok (33, some 1) :=
  ⟨fun _ _ _ _ => rfl, by decide⟩

/-! ## Parser extension lemmas

A successful parse inspects only bytes strictly inside its region, so
appending bytes to the region cannot change a successful result.  These
lemmas make that precise for every layer of the dictionary parser; they
drive the comparison of the two header-acquisition strategies (claim
C2), whose effective parse regions differ by two bytes for version-1
files. -/

theorem skipSpaces_append_cons (l e r : List Nat) (c : Nat)
    (h : npio_ph_skip_spaces_ l = c :: r) :
    npio_ph_skip_spaces_ (l ++ e) = c :: (r ++ e) := by
  induction l with
  | nil => simp [npio_ph_skip_spaces_] at h
  | cons a t ih =>
    by_cases ha : isSpaceByte a
    · simp [npio_ph_skip_spaces_, ha] at h ⊢
      exact ih h
    · simp [npio_ph_skip_spaces_, ha] at h ⊢
      exact ⟨h.1, by rw [h.2]⟩

theorem scanDigits_append_cons (l e ds r : List Nat) (c : Nat)
    (h : scanDigits l = (ds, c :: r)) :
    scanDigits (l ++ e) = (ds, c :: (r ++ e)) := by
  induction l generalizing ds with
  | nil => simp [scanDigits] at h
  | cons a t ih =>
    by_cases ha : 48 ≤ a ∧ a ≤ 57
    · simp only [scanDigits, if_pos ha] at h
      have h1 : a :: (scanDigits t).1 = ds := congrArg Prod.fst h
      have h2 : (scanDigits t).2 = c :: r := congrArg Prod.snd h
      have ht : scanDigits t = ((scanDigits t).1, c :: r) := by rw [← h2]
      have ih2 := ih (scanDigits t).1 ht
      simp only [List.cons_append, List.append_eq, scanDigits, if_pos ha, ih2, ← h1]
    · simp only [scanDigits, if_neg ha] at h
      have h1 : ([] : List Nat) = ds := congrArg Prod.fst h
      have h2 : a :: t = c :: r := congrArg Prod.snd h
      cases h2
      simp only [List.cons_append, List.append_eq, scanDigits, if_neg ha, ← h1]

theorem spanNotByte_append_cons (q : Nat) (l e v r : List Nat) (c : Nat)
    (h : spanNotByte q l = (v, c :: r)) :
    spanNotByte q (l ++ e) = (v, c :: (r ++ e)) := by
  induction l generalizing v with
  | nil => simp [spanNotByte] at h
  | cons a t ih =>
    by_cases ha : a = q
    · simp only [spanNotByte, if_pos ha] at h
      have h1 : ([] : List Nat) = v := congrArg Prod.fst h
      have h2 : a :: t = c :: r := congrArg Prod.snd h
      cases h2
      simp only [List.cons_append, List.append_eq, spanNotByte, if_pos ha, ← h1]
    · simp only [spanNotByte, if_neg ha] at h
      have h1 : a :: (spanNotByte q t).1 = v := congrArg Prod.fst h
      have h2 : (spanNotByte q t).2 = c :: r := congrArg Prod.snd h
      have ht : spanNotByte q t = ((spanNotByte q t).1, c :: r) := by rw [← h2]
      have ih2 := ih (spanNotByte q t).1 ht
      simp only [List.cons_append, List.append_eq, spanNotByte, if_neg ha, ih2, ← h1]

theorem parseShapeLoop_ext (e : List Nat) :
    ∀ (f g : Nat) (h : NpioHeader) (l : List Nat) (h1 : NpioHeader) (r : List Nat),
      parseShapeLoop f h l = .ok (h1, r) → f ≤ g →
      parseShapeLoop g h (l ++ e) = .ok (h1, r ++ e) := by
  intro f
  induction f with
  | zero =>
    intro g h l h1 r hok
    simp [parseShapeLoop] at hok
  | succ f ih =>
    intro g h l h1 r hok hle
    obtain ⟨g1, rfl⟩ : ∃ g1, g = g1 + 1 := ⟨g - 1, by omega⟩
    rcases hsk : npio_ph_skip_spaces_ l with _ | ⟨c0, r0⟩
    · rw [parseShapeLoop, hsk] at hok
      simp [scanDigits] at hok
    · rw [parseShapeLoop, hsk] at hok
      rw [parseShapeLoop, skipSpaces_append_cons l e r0 c0 hsk]
      rcases hsc : scanDigits (c0 :: r0) with ⟨ds, rest⟩
      rw [hsc] at hok
      rcases rest with _ | ⟨c1, r1⟩
      · simp at hok
      · have hsce := scanDigits_append_cons (c0 :: r0) e ds r1 c1 hsc
        rw [List.cons_append] at hsce
        rw [hsce]
        simp only at hok ⊢
        rcases hsk2 : npio_ph_skip_spaces_ (c1 :: r1) with _ | ⟨c2, r2⟩
        · rw [hsk2] at hok
          simp at hok
        · have hsk2e := skipSpaces_append_cons (c1 :: r1) e r2 c2 hsk2
          rw [List.cons_append] at hsk2e
          rw [hsk2] at hok
          rw [hsk2e]
          simp only at hok ⊢
          by_cases h44 : c2 = 44
          · rw [if_pos h44] at hok ⊢
            exact ih g1 _ r2 h1 r hok (by omega)
          · rw [if_neg h44] at hok ⊢
            by_cases h41 : c2 = 41
            · rw [if_pos h41] at hok ⊢
              injection hok with hp
              rw [Prod.mk.injEq] at hp
              obtain ⟨hpa, hpb⟩ := hp
              subst hpa
              subst hpb
              rfl
            · rw [if_neg h41] at hok
              exact absurd hok (by simp)

theorem npio_ph_parse_shape_ext (h : NpioHeader) (l e : List Nat) (h1 : NpioHeader)
    (r : List Nat) (hok : npio_ph_parse_shape_ h l = .ok (h1, r)) :
    npio_ph_parse_shape_ h (l ++ e) = .ok (h1, r ++ e) := by
  rcases l with _ | ⟨c, t⟩
  · simp [npio_ph_parse_shape_] at hok
  · rw [npio_ph_parse_shape_] at hok
    rw [List.cons_append, npio_ph_parse_shape_]
    by_cases hc : c ≠ 40
    · rw [if_pos hc] at hok
      exact absurd hok (by simp)
    · rw [if_neg hc] at hok ⊢
      rcases hloop : parseShapeLoop (t.length + 1)
          { h with shapeCapacity := 8, shapeBuf := List.replicate 8 none } t with he | ⟨h2, rest⟩
      · rw [hloop] at hok
        exact absurd hok (by simp)
      · rw [hloop] at hok
        have hext := parseShapeLoop_ext e (t.length + 1) ((t ++ e).length + 1) _ t h2 rest hloop
          (by simp)
        rw [hext]
        simp only at hok ⊢
        injection hok with hp
        rw [Prod.mk.injEq] at hp
        obtain ⟨hpa, hpb⟩ := hp
        subst hpb
        rw [hpa]

theorem npioAfterValue_ext (h : NpioHeader) (l e : List Nat) (h1 : NpioHeader)
    (r : List Nat) (hok : npioAfterValue h l = .ok (h1, r)) :
    npioAfterValue h (l ++ e) = .ok (h1, r ++ e) := by
  rcases hsk : npio_ph_skip_spaces_ l with _ | ⟨c, t⟩
  · rw [npioAfterValue, hsk] at hok
    exact absurd hok (by simp)
  · rw [npioAfterValue, hsk] at hok
    rw [npioAfterValue, skipSpaces_append_cons l e t c hsk]
    simp only at hok ⊢
    by_cases h44 : c = 44
    · rw [if_pos h44] at hok ⊢
      obtain ⟨ha, hb⟩ : h = h1 ∧ t = r := by
        injection hok with hok2
        exact ⟨congrArg Prod.fst hok2, congrArg Prod.snd hok2⟩
      rw [ha, hb]
    · rw [if_neg h44] at hok ⊢
      obtain ⟨ha, hb⟩ : h = h1 ∧ c :: t = r := by
        injection hok with hok2
        exact ⟨congrArg Prod.fst hok2, congrArg Prod.snd hok2⟩
      rw [ha, ← hb, List.cons_append]

theorem npioKeyOf_ext (r e : List Nat) (k : NpioKey) (r1 : List Nat)
    (hok : npioKeyOf r = some (k, r1)) :
    npioKeyOf (r ++ e) = some (k, r1 ++ e) := by
  rw [npioKeyOf] at hok
  rw [npioKeyOf]
  by_cases hd : 5 < r.length ∧ r.take 5 = descrKeyB
  · rw [if_pos hd] at hok
    have hd2 : 5 < (r ++ e).length ∧ (r ++ e).take 5 = descrKeyB := by
      constructor
      · simp; omega
      · rw [List.take_append_of_le_length (by omega)]; exact hd.2
    rw [if_pos hd2]
    obtain ⟨hk, hr⟩ : k = NpioKey.descr ∧ r.drop 5 = r1 := by
      injection hok with hok2
      exact ⟨(congrArg Prod.fst hok2).symm, congrArg Prod.snd hok2⟩
    rw [hk, ← hr, List.drop_append_of_le_length (by omega)]
  · rw [if_neg hd] at hok
    by_cases hs : 5 < r.length ∧ r.take 5 = shapeKeyB
    · rw [if_pos hs] at hok
      have hs2 : 5 < (r ++ e).length ∧ (r ++ e).take 5 = shapeKeyB := by
        constructor
        · simp; omega
        · rw [List.take_append_of_le_length (by omega)]; exact hs.2
      have hd2 : ¬(5 < (r ++ e).length ∧ (r ++ e).take 5 = descrKeyB) := by
        rintro ⟨-, hfoo⟩
        rw [List.take_append_of_le_length (by omega)] at hfoo
        exact hd ⟨hs.1, hfoo⟩
      rw [if_neg hd2, if_pos hs2]
      obtain ⟨hk, hr⟩ : k = NpioKey.shape ∧ r.drop 5 = r1 := by
        injection hok with hok2
        exact ⟨(congrArg Prod.fst hok2).symm, congrArg Prod.snd hok2⟩
      rw [hk, ← hr, List.drop_append_of_le_length (by omega)]
    · rw [if_neg hs] at hok
      by_cases hf : 13 < r.length ∧ r.take 13 = fortranKeyB
      · rw [if_pos hf] at hok
        have hf2 : 13 < (r ++ e).length ∧ (r ++ e).take 13 = fortranKeyB := by
          constructor
          · simp; omega
          · rw [List.take_append_of_le_length (by omega)]; exact hf.2
        have hd2 : ¬(5 < (r ++ e).length ∧ (r ++ e).take 5 = descrKeyB) := by
          rintro ⟨-, hfoo⟩
          rw [List.take_append_of_le_length (by omega)] at hfoo
          exact hd ⟨by omega, hfoo⟩
        have hs2 : ¬(5 < (r ++ e).length ∧ (r ++ e).take 5 = shapeKeyB) := by
          rintro ⟨-, hfoo⟩
          rw [List.take_append_of_le_length (by omega)] at hfoo
          exact hs ⟨by omega, hfoo⟩
        rw [if_neg hd2, if_neg hs2, if_pos hf2]
        obtain ⟨hk, hr⟩ : k = NpioKey.fortran ∧ r.drop 13 = r1 := by
          injection hok with hok2
          exact ⟨(congrArg Prod.fst hok2).symm, congrArg Prod.snd hok2⟩
        rw [hk, ← hr, List.drop_append_of_le_length (by omega)]
      · rw [if_neg hf] at hok
        exact absurd hok (by simp)

theorem npioProcessPair_ext (h : NpioHeader) (q : Nat) (k : NpioKey) (l e : List Nat)
    (h1 : NpioHeader) (r : List Nat)
    (hok : npioProcessPair h q k l = .ok (h1, r)) :
    npioProcessPair h q k (l ++ e) = .ok (h1, r ++ e) := by
  rcases l with _ | ⟨cq, l1⟩
  · simp [npioProcessPair] at hok
  · rw [npioProcessPair] at hok
    rw [List.cons_append, npioProcessPair]
    by_cases hcq : cq ≠ q
    · rw [if_pos hcq] at hok
      exact absurd hok (by simp)
    · rw [if_neg hcq] at hok ⊢
      rcases hsk1 : npio_ph_skip_spaces_ l1 with _ | ⟨cc, l2⟩
      · rw [hsk1] at hok
        simp at hok
      · rw [hsk1] at hok
        rw [skipSpaces_append_cons l1 e l2 cc hsk1]
        simp only at hok ⊢
        by_cases hcc : cc ≠ 58
        · rw [if_pos hcc] at hok
          exact absurd hok (by simp)
        · rw [if_neg hcc] at hok ⊢
          cases k with
          | descr =>
            rcases hsk2 : npio_ph_skip_spaces_ l2 with _ | ⟨vq, l3⟩
            · rw [hsk2] at hok
              simp at hok
            · rw [hsk2] at hok
              rw [skipSpaces_append_cons l2 e l3 vq hsk2]
              simp only at hok ⊢
              by_cases hq2 : npio_ph_is_quote_ vq = false
              · rw [if_pos hq2] at hok
                exact absurd hok (by simp)
              · rw [if_neg hq2] at hok ⊢
                rcases hsp : spanNotByte vq l3 with ⟨dt, rest⟩
                rw [hsp] at hok
                rcases rest with _ | ⟨c4, l4⟩
                · simp at hok
                · have hspe := spanNotByte_append_cons vq l3 e dt l4 c4 hsp
                  rw [hspe]
                  simp only at hok ⊢
                  exact npioAfterValue_ext _ l4 e h1 r hok
          | fortran =>
            rcases hsk2 : npio_ph_skip_spaces_ l2 with _ | ⟨c3, l3⟩
            · rw [hsk2] at hok
              simp [npio_ph_skip_spaces_] at hok
            · rw [hsk2] at hok
              rw [skipSpaces_append_cons l2 e l3 c3 hsk2]
              simp only at hok ⊢
              rw [if_neg (show ¬(c3 :: l3 = []) by simp)] at hok
              rw [if_neg (show ¬(c3 :: (l3 ++ e) = []) by simp)]
              by_cases ht : 4 < (c3 :: l3).length ∧ (c3 :: l3).take 4 = trueLitB
              · rw [if_pos ht] at hok
                have hlen : 4 ≤ (c3 :: l3).length := by omega
                have ht2 : 4 < (c3 :: (l3 ++ e)).length ∧ (c3 :: (l3 ++ e)).take 4 = trueLitB := by
                  refine ⟨by simp at ht ⊢; omega, ?_⟩
                  rw [← List.cons_append, List.take_append_of_le_length hlen]
                  exact ht.2
                rw [if_pos ht2]
                have hdrop : (c3 :: (l3 ++ e)).drop 4 = (c3 :: l3).drop 4 ++ e := by
                  rw [← List.cons_append, List.drop_append_of_le_length hlen]
                rw [hdrop]
                exact npioAfterValue_ext _ _ e h1 r hok
              · rw [if_neg ht] at hok
                by_cases hf5 : 5 < (c3 :: l3).length ∧ (c3 :: l3).take 5 = falseLitB
                · rw [if_pos hf5] at hok
                  have hlen4 : 4 ≤ (c3 :: l3).length := by omega
                  have hlen5 : 5 ≤ (c3 :: l3).length := by omega
                  have ht2 : ¬(4 < (c3 :: (l3 ++ e)).length ∧ (c3 :: (l3 ++ e)).take 4 = trueLitB) := by
                    rintro ⟨-, hfoo⟩
                    rw [← List.cons_append, List.take_append_of_le_length hlen4] at hfoo
                    exact ht ⟨by omega, hfoo⟩
                  have hf2 : 5 < (c3 :: (l3 ++ e)).length ∧ (c3 :: (l3 ++ e)).take 5 = falseLitB := by
                    refine ⟨by simp at hf5 ⊢; omega, ?_⟩
                    rw [← List.cons_append, List.take_append_of_le_length hlen5]
                    exact hf5.2
                  rw [if_neg ht2, if_pos hf2]
                  have hdrop : (c3 :: (l3 ++ e)).drop 5 = (c3 :: l3).drop 5 ++ e := by
                    rw [← List.cons_append, List.drop_append_of_le_length hlen5]
                  rw [hdrop]
                  exact npioAfterValue_ext _ _ e h1 r hok
                · rw [if_neg hf5] at hok
                  exact absurd hok (by simp)
          | shape =>
            rcases hsk2 : npio_ph_skip_spaces_ l2 with _ | ⟨c3, l3⟩
            · rw [hsk2] at hok
              simp [npio_ph_skip_spaces_] at hok
            · rw [hsk2] at hok
              rw [skipSpaces_append_cons l2 e l3 c3 hsk2]
              simp only at hok ⊢
              rw [if_neg (show ¬(c3 :: l3 = []) by simp)] at hok
              rw [if_neg (show ¬(c3 :: (l3 ++ e) = []) by simp)]
              rcases hps : npio_ph_parse_shape_ h (c3 :: l3) with he | ⟨h2, l4⟩
              · rw [hps] at hok
                simp at hok
              · rw [hps] at hok
                have hpse := npio_ph_parse_shape_ext h (c3 :: l3) e h2 l4 hps
                rw [List.cons_append] at hpse
                rw [hpse]
                simp only at hok ⊢
                exact npioAfterValue_ext h2 l4 e h1 r hok

theorem parseDictLoop_ext (e : List Nat) :
    ∀ (f g : Nat) (h : NpioHeader) (l : List Nat) (hx : NpioHeader),
      parseDictLoop f h l = .ok hx → f ≤ g →
      parseDictLoop g h (l ++ e) = .ok hx := by
  intro f
  induction f with
  | zero =>
    intro g h l hx hok
    simp [parseDictLoop] at hok
  | succ f ih =>
    intro g h l hx hok hle
    obtain ⟨g1, rfl⟩ : ∃ g1, g = g1 + 1 := ⟨g - 1, by omega⟩
    rcases hsk : npio_ph_skip_spaces_ l with _ | ⟨c, r⟩
    · rw [parseDictLoop, hsk] at hok
      simp at hok
    · rw [parseDictLoop, hsk] at hok
      rw [parseDictLoop, skipSpaces_append_cons l e r c hsk]
      simp only at hok ⊢
      by_cases h125 : c = 125
      · rw [if_pos h125] at hok ⊢
        exact hok
      · rw [if_neg h125] at hok ⊢
        by_cases hq : npio_ph_is_quote_ c = false
        · rw [if_pos hq] at hok
          exact absurd hok (by simp)
        · rw [if_neg hq] at hok ⊢
          rcases hkey : npioKeyOf r with _ | ⟨k, r1⟩
          · rw [hkey] at hok
            simp at hok
          · rw [hkey] at hok
            rw [npioKeyOf_ext r e k r1 hkey]
            simp only at hok ⊢
            rcases hpp : npioProcessPair h c k r1 with he | ⟨h2, l2⟩
            · rw [hpp] at hok
              simp at hok
            · rw [hpp] at hok
              rw [npioProcessPair_ext h c k r1 e h2 l2 hpp]
              simp only at hok ⊢
              exact ih g1 h2 l2 hx hok (by omega)

theorem npio_ph_parse_dict_ext (h : NpioHeader) (l e : List Nat) (hx : NpioHeader)
    (hok : npio_ph_parse_dict_ h l = .ok hx) :
    npio_ph_parse_dict_ h (l ++ e) = .ok hx := by
  rcases l with _ | ⟨c, r⟩
  · simp [npio_ph_parse_dict_] at hok
  · rw [npio_ph_parse_dict_] at hok
    rw [List.cons_append, npio_ph_parse_dict_]
    by_cases hc : c ≠ 123
    · rw [if_pos hc] at hok
      exact absurd hok (by simp)
    · rw [if_neg hc] at hok ⊢
      exact parseDictLoop_ext e (r.length + 1) ((r ++ e).length + 1) h r hx hok (by simp)

theorem npio_getD_take (l : List Nat) (n i d : Nat) (h : i < n) :
    (l.take n).getD i d = l.getD i d := by
  simp [List.getD, List.getElem?_take_of_lt h]

/-- The prelude parser inspects only the first 12 bytes. -/
theorem npio_load_header_prelude_take12 (l : List Nat) (h : NpioHeader)
    (hlen : 12 ≤ l.length) :
    npio_load_header_prelude_ (l.take 12) h = npio_load_header_prelude_ l h := by
  have h6 : (l.take 12).take 6 = l.take 6 := by
    rw [List.take_take]
    norm_num
  have hL : (l.take 12).length = 12 := by
    simp [List.length_take]
    omega
  simp only [npio_load_header_prelude_]
  rw [h6, hL,
    npio_getD_take l 12 6 0 (by omega), npio_getD_take l 12 7 0 (by omega),
    npio_getD_take l 12 8 0 (by omega), npio_getD_take l 12 9 0 (by omega),
    npio_getD_take l 12 10 0 (by omega), npio_getD_take l 12 11 0 (by omega)]
  by_cases hm : l.take 6 ≠ npioMagic
  · rw [if_pos hm, if_pos hm]
  · rw [if_neg hm, if_neg hm, if_neg (by omega : ¬(12 : Nat) < 10),
      if_neg (by omega : ¬l.length < 10)]
    by_cases hm1 : toSChar (l.getD 6 0) = 1
    · rw [if_pos hm1, if_pos hm1]
    · rw [if_neg hm1, if_neg hm1]
      by_cases hm2 : toSChar (l.getD 6 0) = 2
      · rw [if_pos hm2, if_pos hm2, if_neg (by omega : ¬(12 : Nat) < 12),
          if_neg (by omega : ¬l.length < 12)]
      · rw [if_neg hm2, if_neg hm2]

/-- A successful prelude parse consumed 10 bytes (major 1) or 12 bytes
(major 2), and the input provided at least 10 bytes. -/
theorem npio_load_header_prelude_consumed (l : List Nat) (h h1 : NpioHeader) (c : Nat)
    (hok : npio_load_header_prelude_ l h = .ok (h1, c)) :
    (c = 10 ∨ c = 12) ∧ 10 ≤ l.length := by
  simp only [npio_load_header_prelude_] at hok
  by_cases hm : l.take 6 ≠ npioMagic
  · rw [if_pos hm] at hok
    exact absurd hok (by simp)
  · rw [if_neg hm] at hok
    by_cases hl10 : l.length < 10
    · rw [if_pos hl10] at hok
      exact absurd hok (by simp)
    · rw [if_neg hl10] at hok
      by_cases hm1 : toSChar (l.getD 6 0) = 1
      · rw [if_pos hm1] at hok
        injection hok with hp
        have hc : (10 : Nat) = c := congrArg Prod.snd hp
        exact ⟨Or.inl hc.symm, by omega⟩
      · rw [if_neg hm1] at hok
        by_cases hm2 : toSChar (l.getD 6 0) = 2
        · rw [if_pos hm2] at hok
          by_cases hl12 : l.length < 12
          · rw [if_pos hl12] at hok
            exact absurd hok (by simp)
          · rw [if_neg hl12] at hok
            injection hok with hp
            have hc : (12 : Nat) = c := congrArg Prod.snd hp
            exact ⟨Or.inr hc.symm, by omega⟩
        · rw [if_neg hm2] at hok
          exact absurd hok (by simp)

/--
C2 (amended): whenever the input is at least 16 bytes long, contains
the full declared header plus the 2 extra prelude-buffer bytes
(`12 + header_len ≤ size`), the buffered path's header-length cap
`header_len ≤ (1024 + 20 * max_dim) mod 2^64` (the cap is computed in
wrapping `size_t` arithmetic) is met, and the mapped strategy's
dictionary parse succeeds, the buffered fallback strategy produces the
identical parsed header.  (As stated, the claim is false: the buffered
path additionally rejects large declared header lengths with `ERANGE` —
see the counterexample — requires only 12 rather than 16 bytes, parses
a region extending 2 bytes past the declared header for version-1
files, and returns the ambient `errno` on a short first read.)
-/
theorem C2_buffered_matches_mapped (l : List Nat) (a : NpioArray) (max_dim errnoV : Nat)
    (uninit : List Nat) (h1 : NpioHeader) (c : Nat) (hx : NpioHeader)
    (hpre : npio_load_header_prelude_ l a.hdr = .ok (h1, c))
    (hsz : 16 ≤ l.length)
    (hcap : h1.header_len ≤ (1024 + max_dim * 20) % SZ)
    (hfull : 12 + h1.header_len ≤ l.length)
    (hparse : npio_ph_parse_dict_ h1 ((l.drop c).take h1.header_len) = .ok hx) :
    Except.map NpioArray.hdr (npio_load_header_mem4 l a max_dim) = .ok hx ∧
      Except.map NpioArray.hdr (npio_load_header_fd_read_ l a max_dim errnoV uninit)
        = .ok hx := by
  obtain ⟨hc, -⟩ := npio_load_header_prelude_consumed l a.hdr h1 c hpre
  have hc12 : c ≤ 12 := by rcases hc with rfl | rfl <;> omega
  have hdlen : (l.drop c).length = l.length - c := List.length_drop ..
  constructor
  · simp only [npio_load_header_mem4]
    rw [if_neg (by omega : ¬l.length < 16)]
    have hh : (if a._mmapped then a else { a with _buf := l, _buf_size := l.length }).hdr
        = a.hdr := by
      cases ha : a._mmapped <;> simp [ha]
    rw [hh, hpre]
    simp only
    have hreg : (if h1.header_len < (l.drop c).length then (l.drop c).take h1.header_len
        else l.drop c) = (l.drop c).take h1.header_len := by
      by_cases hw : h1.header_len < (l.drop c).length
      · rw [if_pos hw]
      · rw [if_neg hw, List.take_of_length_le (by omega)]
    rw [hreg, hparse]
    simp [Except.map]
  · simp only [npio_load_header_fd_read_]
    rw [if_neg (by omega : ¬l.length < 12)]
    rw [npio_load_header_prelude_take12 l a.hdr (by omega), hpre]
    simp only
    rw [if_neg (Nat.not_lt.mpr hcap)]
    have hglen : ((l.drop 12).take h1.header_len).length = h1.header_len := by
      simp [List.length_take, List.length_drop]
      omega
    rw [hglen, Nat.sub_self, List.take_zero, List.append_nil, ← List.take_add]
    have hregion : (l.take (12 + h1.header_len)).drop c
        = (l.drop c).take h1.header_len ++ ((l.drop c).drop h1.header_len).take (12 - c) := by
      rw [List.drop_take, show 12 + h1.header_len - c = h1.header_len + (12 - c) by omega,
        List.take_add]
    rw [hregion, npio_ph_parse_dict_ext h1 _ _ hx hparse]
    simp [Except.map]

/-- Witness for `C2_buffered_matches_mapped` at the concrete 93-byte
file `exC2wbytes`. -/
theorem C2_buffered_matches_mapped_witness :
    npio_load_header_prelude_ exC2wbytes (npio_init_array true).hdr
        = .ok ({ header_len := 59 }, 10) ∧
      16 ≤ exC2wbytes.length ∧
      ({ header_len := 59 } : NpioHeader).header_len ≤ (1024 + 32 * 20) % SZ ∧
      12 + ({ header_len := 59 } : NpioHeader).header_len ≤ exC2wbytes.length ∧
      npio_ph_parse_dict_ { header_len := 59 } ((exC2wbytes.drop 10).take
          ({ header_len := 59 } : NpioHeader).header_len)
        = .ok { header_len := 59, dtype := some [60, 102, 52], dim := 2,
                shapeBuf := [some 2, some 3, none, none, none, none, none, none],
                shapeCapacity := 8, size := some 6 } ∧
      (Except.map NpioArray.hdr (npio_load_header_mem4 exC2wbytes (npio_init_array true) 32)
          = .ok { header_len := 59, dtype := some [60, 102, 52], dim := 2,
                  shapeBuf := [some 2, some 3, none, none, none, none, none, none],
                  shapeCapacity := 8, size := some 6 } ∧
        Except.map NpioArray.hdr
            (npio_load_header_fd_read_ exC2wbytes (npio_init_array true) 32 0 [])
          = .ok { header_len := 59, dtype := some [60, 102, 52], dim := 2,
                  shapeBuf := [some 2, some 3, none, none, none, none, none, none],
                  shapeCapacity := 8, size := some 6 }) :=
  ⟨by decide, by decide, by decide, by decide, by decide,
    C2_buffered_matches_mapped exC2wbytes (npio_init_array true) 32 0 []
      { header_len := 59 } 10
      { header_len := 59, dtype := some [60, 102, 52], dim := 2,
        shapeBuf := [some 2, some 3, none, none, none, none, none, none],
        shapeCapacity := 8, size := some 6 }
      (by decide) (by decide) (by decide) (by decide) (by decide)⟩

/-- C6: for a descriptor on the mapped path (with a well-defined
payload size `m`), `npio_load_data2` succeeds only when
`data_offset + m` equals the total mapped size exactly (in `size_t`
arithmetic), and under the alignment precondition any mismatch —
shortfall or trailing excess — returns `EINVAL` without producing any
descriptor (so the data pointer is never set). -/
theorem C6_mapped_exact_size (a : NpioArray) (env : LoadEnv) (swap hostLittle : Bool)
    (m : Nat) (hm : a._mmapped = true) (hsz : npio_array_memsize a.hdr = some m) :
    (∀ r, npio_load_data2 a env swap hostLittle = .ok r →
        (npioDataOffset a.hdr + m) % SZ = a._buf_size) ∧
      (npioDataOffset a.hdr % 16 = 0 → (npioDataOffset a.hdr + m) % SZ ≠ a._buf_size →
        npio_load_data2 a env swap hostLittle = .error EINVAL) := by
  constructor
  · intro r hr
    by_cases heq : (npioDataOffset a.hdr + m) % SZ = a._buf_size
    · exact heq
    · exfalso
      simp only [npio_load_data2, hm, hsz] at hr
      by_cases h16 : npioDataOffset a.hdr % 16 = 0
      · simp [h16, heq] at hr
      · simp [h16] at hr
  · intro h16 hne
    simp only [npio_load_data2, hm, hsz]
    simp [h16, hne]

/-- Witness for `C6_mapped_exact_size` at `exC6arr` (expected 16 bytes
at offset 16 inside a 40-byte mapping: a trailing-excess mismatch). -/
theorem C6_mapped_exact_size_witness :
    exC6arr._mmapped = true ∧ npio_array_memsize exC6arr.hdr = some 16 ∧
      ((∀ r, npio_load_data2 exC6arr {} false true = .ok r →
          (npioDataOffset exC6arr.hdr + 16) % SZ = exC6arr._buf_size) ∧
        (npioDataOffset exC6arr.hdr % 16 = 0 →
          (npioDataOffset exC6arr.hdr + 16) % SZ ≠ exC6arr._buf_size →
          npio_load_data2 exC6arr {} false true = .error EINVAL)) :=
  ⟨by decide, by decide,
    C6_mapped_exact_size exC6arr {} false true 16 (by decide) (by decide)⟩

theorem npioEntryLoop_error (sz start : Nat) :
    ∀ (t acc : List Nat) (e : Nat), npioEntryLoop sz start t acc = .error e → e = ERANGE := by
  intro t
  induction t with
  | nil =>
    intro acc e h
    simp [npioEntryLoop] at h
  | cons v t ih =>
    intro acc e h
    simp only [npioEntryLoop] at h
    by_cases hc : sz ≤ start + (acc ++ printfLd v ++ [44, 32]).length + 3
    · rw [if_pos hc] at h
      injection h with h2
      exact h2.symm
    · rw [if_neg hc] at h
      exact ih _ e h

theorem npioSetLast_getLast (x : List Nat) (u v : Nat) (hx : 11 ≤ x.length) :
    (((x.set (x.length - 1) 10).set 8 u).set 9 v).getLast? = some 10 := by
  rw [List.getLast?_eq_getElem?]
  simp only [List.length_set]
  rw [List.getElem?_set_ne (by omega : (9 : Nat) ≠ x.length - 1),
    List.getElem?_set_ne (by omega : (8 : Nat) ≠ x.length - 1),
    List.getElem?_set_self (by simp [List.length_set]; omega)]

/-- C8 (amended): whenever `npio_save_header_mem` succeeds, the emitted
prelude-plus-header length is congruent to the *buffer size* modulo 16
(the padding loop stops at `hdr_end`-relative alignment), and the final
byte is a newline; every failure (for a well-defined shape) is
`ERANGE`.  The claimed 16-byte alignment therefore holds exactly when
`sz % 16 = 0`, which the 65536-byte buffer of `npio_save_fd` satisfies
but an arbitrary destination buffer does not (see the counterexample). -/
theorem C8_alignment_tracks_buffer_size (sz : Nat) (a : NpioArray)
    (hdef : shapeValsOf a.hdr ≠ none) :
    (∀ out, npio_save_header_mem sz a = .ok out →
        out.length % 16 = sz % 16 ∧ out.getLast? = some 10) ∧
      (∀ e, npio_save_header_mem sz a = .error e → e = ERANGE) := by
  rcases hsv : shapeValsOf a.hdr with _ | sh
  · exact absurd hsv hdef
  · by_cases h64 : sz < 64
    · constructor
      · intro out hout
        rw [npio_save_header_mem, if_pos h64] at hout
        exact absurd hout (by simp)
      · intro e he
        rw [npio_save_header_mem, if_pos h64] at he
        injection he with h2
        exact h2.symm
    · constructor
      · intro out hout
        simp only [npio_save_header_mem] at hout
        rw [if_neg h64, hsv] at hout
        simp only at hout
        rcases hel : npioEntryLoop sz
            (10 + (descrChunk a.hdr ++ fortranChunk a.hdr ++ shapeOpenChunk).length) sh []
            with e0 | entries
        · rw [hel] at hout
          exact absurd hout (by simp)
        · rw [hel] at hout
          simp only at hout
          split at hout
          · split at hout
            · exact absurd hout (by simp)
            · next hmod =>
              injection hout with h2
              rw [← h2]
              push_neg at hmod
              constructor
              · simp only [List.length_set, List.length_append, List.length_replicate,
                  npioMagic, List.length_cons, List.length_nil] at hmod ⊢
                omega
              · apply npioSetLast_getLast
                simp only [List.length_append, List.length_replicate, npioMagic,
                  List.length_cons, List.length_nil]
                omega
          · split at hout
            · exact absurd hout (by simp)
            · next hmod =>
              injection hout with h2
              rw [← h2]
              push_neg at hmod
              constructor
              · simp only [List.length_set, List.length_append, List.length_replicate,
                  npioMagic, List.length_cons, List.length_nil] at hmod ⊢
                omega
              · apply npioSetLast_getLast
                simp only [List.length_append, List.length_replicate, npioMagic,
                  List.length_cons, List.length_nil]
                omega
      · intro e he
        simp only [npio_save_header_mem] at he
        rw [if_neg h64, hsv] at he
        simp only at he
        rcases hel : npioEntryLoop sz
            (10 + (descrChunk a.hdr ++ fortranChunk a.hdr ++ shapeOpenChunk).length) sh []
            with e0 | entries
        · rw [hel] at he
          simp only at he
          injection he with h2
          rw [← h2]
          exact npioEntryLoop_error sz _ sh [] e0 hel
        · rw [hel] at he
          simp only at he
          split at he <;> split at he <;>
            first
              | (injection he with h2; exact h2.symm)
              | exact absurd he (by simp)

/-- Witness for `C8_alignment_tracks_buffer_size` at a 64-byte buffer
(a multiple of 16, so the emitted header is 16-byte aligned there). -/
theorem C8_alignment_tracks_buffer_size_witness :
    shapeValsOf exC8arr.hdr ≠ none ∧
      ((∀ out, npio_save_header_mem 64 exC8arr = .ok out →
          out.length % 16 = 64 % 16 ∧ out.getLast? = some 10) ∧
        (∀ e, npio_save_header_mem 64 exC8arr = .error e → e = ERANGE)) :=
  ⟨by decide, C8_alignment_tracks_buffer_size 64 exC8arr (by decide)⟩

theorem npioGet21 (x y : List Nat) (h10 : x.length = 10) : (x ++ y).get? 21 = y.get? 11 := by
  simp [List.get?_eq_getElem?, List.getElem?_append_right, h10]

theorem descrChunk_get11 (h : NpioHeader) :
    (descrChunk h).get? 11 = some (if h.little_endian ≠ 0 then 60 else 62) := by
  simp [descrChunk]

theorem npioSetsGet21 (x : List Nat) (u v : Nat) (hx : 23 ≤ x.length) :
    (((x.set (x.length - 1) 10).set 8 u).set 9 v).get? 21 = x.get? 21 := by
  rw [List.get?_eq_getElem?,
    List.getElem?_set_ne (by omega : (9 : Nat) ≠ 21),
    List.getElem?_set_ne (by omega : (8 : Nat) ≠ 21),
    List.getElem?_set_ne (by omega : x.length - 1 ≠ 21),
    ← List.get?_eq_getElem?]

theorem npioFullGet21 (body pad : List Nat) (hb : 11 < body.length) :
    (npioMagic ++ [1, 0, 0, 0] ++ body ++ pad).get? 21 = body.get? 11 := by
  rw [show npioMagic ++ [1, 0, 0, 0] ++ body ++ pad
      = (npioMagic ++ [1, 0, 0, 0]) ++ (body ++ pad) by simp]
  rw [npioGet21 _ _ (by simp [npioMagic]), List.get?_eq_getElem?,
    List.getElem?_append_left hb, ← List.get?_eq_getElem?]

/-- Byte 21 of every successfully serialized header is the `descr`
endianness character, taken from the descriptor's `little_endian`
flag. -/
theorem npio_save_header_mem_get21 (sz : Nat) (a : NpioArray) (out : List Nat)
    (hok : npio_save_header_mem sz a = .ok out) :
    out.get? 21 = some (if a.hdr.little_endian ≠ 0 then 60 else 62) := by
  simp only [npio_save_header_mem] at hok
  by_cases h64 : sz < 64
  · rw [if_pos h64] at hok
    exact absurd hok (by simp)
  · rw [if_neg h64] at hok
    rcases hsv : shapeValsOf a.hdr with _ | sh
    · rw [hsv] at hok
      exact absurd hok (by simp)
    · rw [hsv] at hok
      simp only at hok
      rcases hel : npioEntryLoop sz
          (10 + (descrChunk a.hdr ++ fortranChunk a.hdr ++ shapeOpenChunk).length) sh []
          with e0 | entries
      · rw [hel] at hok
        exact absurd hok (by simp)
      · rw [hel] at hok
        simp only at hok
        split at hok <;> split at hok <;>
          first
          | exact Except.noConfusion hok
          | (injection hok with h1b
             rw [← h1b,
               npioSetsGet21 _ _ _ (by
                 simp only [List.length_append, List.length_replicate, npioMagic,
                   List.length_cons, List.length_nil, descrChunk, fortranChunk,
                   shapeOpenChunk]
                 omega),
               npioFullGet21 _ _ (by
                 simp only [List.length_append, descrChunk, fortranChunk, shapeOpenChunk,
                   List.length_cons, List.length_nil]
                 omega)]
             simp [descrChunk])

/--
C9 (amended): `npio_save_fd` writes the serialized header followed by
the payload bytes *verbatim* (no transformation), and the emitted
`descr` endianness character (byte 21 of the file) is `<`/`>` according
to the **descriptor's** `little_endian` flag — which equals the host's
endianness for descriptors initialized by `npio_init_array`, but not
for arbitrary caller-set flags (see the counterexample).  When the
recorded flag does equal the host's, the load-side swap step is the
identity, so no byte swap happens on a same-host reload.
-/
theorem C9_raw_payload_and_flag_tag (a : NpioArray) (hb pb : List Nat) (m : Nat)
    (h1 : npio_save_header_mem 65536 a = .ok hb)
    (h2 : npio_array_memsize a.hdr = some m)
    (h3 : m < 2 ^ 63) (h4 : 0 < m)
    (h5 : payloadOf a m = some pb) :
    npio_save_fd a = .ok (hb ++ pb) ∧
      hb.get? 21 = some (if a.hdr.little_endian ≠ 0 then 60 else 62) ∧
      (∀ (b : NpioArray) (host : Bool),
        b.hdr.little_endian = (if host then 1 else 0) →
        npioFinishLoad b true host = .ok b) := by
  refine ⟨?_, npio_save_header_mem_get21 65536 a hb h1, ?_⟩
  · simp only [npio_save_fd]
    rw [h1]
    simp only
    rw [h2]
    simp only
    rw [if_neg (by omega : ¬2 ^ 63 ≤ m), if_neg (by omega : ¬m = 0), h5]
  · intro b host hhost
    simp only [npioFinishLoad]
    simp [hhost]

/-- Witness for `C9_raw_payload_and_flag_tag` at the concrete
descriptor `exC9arr` (80-byte header, 2 payload bytes). -/
theorem C9_raw_payload_and_flag_tag_witness :
    npio_save_header_mem 65536 exC9arr = .ok (exC9file.take 80) ∧
      npio_array_memsize exC9arr.hdr = some 2 ∧
      (2 : Nat) < 2 ^ 63 ∧ (0 : Nat) < 2 ∧
      payloadOf exC9arr 2 = some [1, 2] ∧
      (npio_save_fd exC9arr = .ok (exC9file.take 80 ++ [1, 2]) ∧
        (exC9file.take 80).get? 21 = some (if exC9arr.hdr.little_endian ≠ 0 then 60 else 62) ∧
        (∀ (b : NpioArray) (host : Bool),
          b.hdr.little_endian = (if host then 1 else 0) →
          npioFinishLoad b true host = .ok b)) :=
  ⟨by decide, by decide, by decide, by decide, by decide,
    C9_raw_payload_and_flag_tag exC9arr (exC9file.take 80) [1, 2] 2
      (by decide) (by decide) (by decide) (by decide) (by decide)⟩

/-! ## Canonical-text parsing lemmas (for claim C5) -/

theorem isSpaceByte_false_of_digit (c : Nat) (h : 48 ≤ c) : isSpaceByte c = false := by
  simp only [isSpaceByte, Bool.or_eq_false_iff, beq_eq_false_iff_ne, ne_eq,
    Bool.and_eq_false_iff, decide_eq_false_iff_not, not_le]
  omega

theorem skipSpaces_cons_of_nonspace (c : Nat) (r : List Nat) (h : isSpaceByte c = false) :
    npio_ph_skip_spaces_ (c :: r) = c :: r := by
  rw [npio_ph_skip_spaces_, if_neg (by simp [h])]

theorem natDList_digits : ∀ (f v c : Nat), c ∈ natDList f v → 48 ≤ c ∧ c ≤ 57 := by
  intro f
  induction f with
  | zero =>
    intro v c hc
    simp [natDList] at hc
  | succ f ih =>
    intro v c hc
    rw [natDList] at hc
    by_cases hv : v < 10
    · rw [if_pos hv] at hc
      simp at hc
      omega
    · rw [if_neg hv] at hc
      rcases List.mem_append.mp hc with hc1 | hc2
      · exact ih (v / 10) c hc1
      · simp at hc2
        have : v % 10 < 10 := Nat.mod_lt v (by omega)
        omega

theorem natDList_ne_nil (f v : Nat) : natDList (f + 1) v ≠ [] := by
  rw [natDList]
  by_cases hv : v < 10
  · rw [if_pos hv]
    simp
  · rw [if_neg hv]
    simp

theorem digitsVal_append_one (ds : List Nat) (d : Nat) :
    digitsVal (ds ++ [d]) = (digitsVal ds * 10 + (d - 48)) % SZ := by
  simp [digitsVal, List.foldl_append]

theorem natDList_val : ∀ (f v : Nat), v < 10 ^ f → v < SZ → digitsVal (natDList f v) = v := by
  intro f
  induction f with
  | zero =>
    intro v h10 _
    have hv0 : v = 0 := by simpa using h10
    subst hv0
    simp [natDList, digitsVal]
  | succ f ih =>
    intro v h10 hsz
    rw [natDList]
    by_cases hv : v < 10
    · rw [if_pos hv]
      simp [digitsVal, SZ]
      omega
    · rw [if_neg hv]
      rw [digitsVal_append_one]
      have hdiv : v / 10 < 10 ^ f := by
        have h1 : v < 10 * 10 ^ f := by
          have := pow_succ 10 f
          omega
        omega
      rw [ih (v / 10) hdiv (by omega)]
      have : v / 10 * 10 + (48 + v % 10 - 48) = v := by omega
      rw [this, Nat.mod_eq_of_lt hsz]

theorem natDigits_digits (v c : Nat) (hc : c ∈ natDigits v) : 48 ≤ c ∧ c ≤ 57 :=
  natDList_digits 24 v c hc

theorem natDigits_ne_nil (v : Nat) : natDigits v ≠ [] := natDList_ne_nil 23 v

theorem digitsVal_natDigits (v : Nat) (h : v < SZ) : digitsVal (natDigits v) = v :=
  natDList_val 24 v (by
    calc v < SZ := h
    _ ≤ 10 ^ 24 := by norm_num [SZ]) h

theorem scanDigits_all_digits (ds : List Nat) (hall : ∀ x ∈ ds, 48 ≤ x ∧ x ≤ 57) :
    ∀ (c : Nat) (r : List Nat), ¬(48 ≤ c ∧ c ≤ 57) →
      scanDigits (ds ++ c :: r) = (ds, c :: r) := by
  induction ds with
  | nil =>
    intro c r hc
    simp [scanDigits, hc]
  | cons a t ih =>
    intro c r hc
    have ha : 48 ≤ a ∧ a ≤ 57 := hall a (by simp)
    rw [List.cons_append, scanDigits, if_pos ha,
      ih (fun x hx => hall x (by simp [hx])) c r hc]

theorem spanNotByte_no_q (q : Nat) (v : List Nat) (hv : ∀ x ∈ v, x ≠ q) :
    ∀ r : List Nat, spanNotByte q (v ++ q :: r) = (v, q :: r) := by
  induction v with
  | nil =>
    intro r
    simp [spanNotByte]
  | cons a t ih =>
    intro r
    have ha : a ≠ q := hv a (by simp)
    rw [List.cons_append, spanNotByte, if_neg ha,
      ih (fun x hx => hv x (by simp [hx])) r]

theorem take_succ_set (l : List (Option Nat)) :
    ∀ (n : Nat) (x : Option Nat), n < l.length →
      (l.set n x).take (n + 1) = l.take n ++ [x] := by
  induction l with
  | nil =>
    intro n x h
    simp at h
  | cons a t ih =>
    intro n x h
    cases n with
    | zero => simp
    | succ m =>
      simp only [List.set, List.take, List.cons_append]
      rw [ih m x (by simpa using h)]

theorem npio_ph_shape_append_spec (h : NpioHeader) (v : Nat)
    (h1 : h.dim ≤ h.shapeCapacity) (h2 : h.shapeBuf.length = h.shapeCapacity)
    (h3 : 0 < h.shapeCapacity) :
    (npio_ph_shape_append_ h v).dim = h.dim + 1 ∧
      (npio_ph_shape_append_ h v).shapeBuf.take (h.dim + 1)
        = h.shapeBuf.take h.dim ++ [some v] ∧
      (npio_ph_shape_append_ h v).dim ≤ (npio_ph_shape_append_ h v).shapeCapacity ∧
      (npio_ph_shape_append_ h v).shapeBuf.length = (npio_ph_shape_append_ h v).shapeCapacity ∧
      0 < (npio_ph_shape_append_ h v).shapeCapacity ∧
      (npio_ph_shape_append_ h v).dtype = h.dtype ∧
      (npio_ph_shape_append_ h v).fortran_order = h.fortran_order := by
  by_cases hc : h.dim = h.shapeCapacity
  · simp only [npio_ph_shape_append_, beq_iff_eq, if_pos hc]
    refine ⟨by trivial, ?_, ?_, ?_, ?_, by trivial, by trivial⟩
    · rw [take_succ_set _ _ _ (by simp [List.length_append]; omega)]
      rw [List.take_append_of_le_length (by omega)]
    · omega
    · simp [List.length_set, List.length_append, List.length_replicate]
      omega
    · omega
  · have hlt : h.dim < h.shapeCapacity := by omega
    simp only [npio_ph_shape_append_, beq_iff_eq, if_neg hc]
    refine ⟨by trivial, ?_, by omega, ?_, by omega, by trivial, by trivial⟩
    · rw [take_succ_set _ _ _ (by omega)]
    · simp [List.length_set]
      omega

theorem foldShape_spec : ∀ (t : List Nat) (h : NpioHeader),
    h.dim ≤ h.shapeCapacity → h.shapeBuf.length = h.shapeCapacity → 0 < h.shapeCapacity →
    (t.foldl npio_ph_shape_append_ h).dim = h.dim + t.length ∧
      (t.foldl npio_ph_shape_append_ h).shapeBuf.take (h.dim + t.length)
        = h.shapeBuf.take h.dim ++ t.map some ∧
      (t.foldl npio_ph_shape_append_ h).dim ≤ (t.foldl npio_ph_shape_append_ h).shapeCapacity ∧
      (t.foldl npio_ph_shape_append_ h).shapeBuf.length
        = (t.foldl npio_ph_shape_append_ h).shapeCapacity ∧
      0 < (t.foldl npio_ph_shape_append_ h).shapeCapacity ∧
      (t.foldl npio_ph_shape_append_ h).dtype = h.dtype ∧
      (t.foldl npio_ph_shape_append_ h).fortran_order = h.fortran_order := by
  intro t
  induction t with
  | nil =>
    intro h h1 h2 h3
    simpa using ⟨h1, h2, h3⟩
  | cons v t ih =>
    intro h h1 h2 h3
    simp only [List.foldl_cons, List.length_cons, List.map_cons]
    obtain ⟨a1, a2, a3, a4, a5, a6, a7⟩ := npio_ph_shape_append_spec h v h1 h2 h3
    obtain ⟨b1, b2, b3, b4, b5, b6, b7⟩ := ih (npio_ph_shape_append_ h v) a3 a4 a5
    have harr : h.dim + (t.length + 1) = h.dim + 1 + t.length := by omega
    refine ⟨by rw [b1, a1]; omega, ?_, b3, b4, b5, by rw [b6, a6], by rw [b7, a7]⟩
    rw [harr, ← a1, b2, a1, a2, List.append_assoc, List.singleton_append]

theorem parseShapeLoop_canonical : ∀ (t : List Nat) (h : NpioHeader) (rest : List Nat),
    (∀ v ∈ t, v < SZ) →
    parseShapeLoop (t.length + 1) h (tupBody t ++ 41 :: rest)
      = .ok (t.foldl npio_ph_shape_append_ h, rest) := by
  intro t
  induction t with
  | nil =>
    intro h rest _
    simp [parseShapeLoop, tupBody, npio_ph_skip_spaces_, scanDigits, isSpaceByte]
  | cons v t2 ih =>
    intro h rest hvals
    obtain ⟨d0, ds0, hnd⟩ : ∃ d0 ds0, natDigits v = d0 :: ds0 := by
      rcases hh : natDigits v with _ | ⟨a, b⟩
      · exact absurd hh (natDigits_ne_nil v)
      · exact ⟨a, b, rfl⟩
    have hd0 : 48 ≤ d0 ∧ d0 ≤ 57 := natDigits_digits v d0 (by rw [hnd]; simp)
    have hscan : ∀ (c : Nat) (r : List Nat), ¬(48 ≤ c ∧ c ≤ 57) →
        scanDigits (natDigits v ++ c :: r) = (natDigits v, c :: r) :=
      scanDigits_all_digits (natDigits v) (fun x hx => natDigits_digits v x hx)
    have hvlt : v < SZ := hvals v (by simp)
    cases t2 with
    | nil =>
      rw [show tupBody [v] = natDigits v from rfl]
      simp only [List.length_cons, List.length_nil]
      rw [parseShapeLoop, hnd, List.cons_append,
        skipSpaces_cons_of_nonspace d0 _ (isSpaceByte_false_of_digit d0 hd0.1),
        ← List.cons_append, ← hnd, hscan 41 rest (by decide)]
      simp only
      rw [if_neg (natDigits_ne_nil v), digitsVal_natDigits v hvlt,
        skipSpaces_cons_of_nonspace 41 rest (by decide)]
      simp only
      simp
    | cons w t3 =>
      rw [show tupBody (v :: w :: t3) = natDigits v ++ 44 :: tupBody (w :: t3) from rfl]
      simp only [List.length_cons]
      rw [List.append_assoc, List.cons_append]
      rw [parseShapeLoop, hnd, List.cons_append,
        skipSpaces_cons_of_nonspace d0 _ (isSpaceByte_false_of_digit d0 hd0.1),
        ← List.cons_append, ← hnd, hscan 44 _ (by decide)]
      simp only
      rw [if_neg (natDigits_ne_nil v), digitsVal_natDigits v hvlt,
        skipSpaces_cons_of_nonspace 44 _ (by decide)]
      simp only [if_true]
      have ihw := ih (npio_ph_shape_append_ h v) rest (fun x hx => hvals x (by simp [hx]))
      simp only [List.length_cons] at ihw
      rw [ihw]
      simp

theorem tupBody_length_ge : ∀ (t : List Nat), t.length ≤ (tupBody t).length + 1 := by
  intro t
  induction t with
  | nil => simp [tupBody]
  | cons v t ih =>
    cases t with
    | nil => simp [tupBody]
    | cons w t2 =>
      have hnd : 1 ≤ (natDigits v).length := by
        rcases hh : natDigits v with _ | _
        · exact absurd hh (natDigits_ne_nil v)
        · simp
      simp only [tupBody, List.length_cons, List.length_append] at *
      omega

theorem npio_ph_parse_shape_canonical (t : List Nat) (h : NpioHeader) (rest : List Nat)
    (hv : ∀ v ∈ t, v < SZ) :
    npio_ph_parse_shape_ h (tupLit t ++ rest)
      = .ok ({ (t.foldl npio_ph_shape_append_
            { h with shapeCapacity := 8, shapeBuf := List.replicate 8 none }) with
          size := npio_array_size (t.foldl npio_ph_shape_append_
            { h with shapeCapacity := 8, shapeBuf := List.replicate 8 none }) }, rest) := by
  have hcan := parseShapeLoop_canonical t
      { h with shapeCapacity := 8, shapeBuf := List.replicate 8 none } rest hv
  have hext := parseShapeLoop_ext [] (t.length + 1)
      ((tupBody t ++ 41 :: rest).length + 1) _ _ _ _ hcan
      (by simp only [List.length_append, List.length_cons]
          have := tupBody_length_ge t
          omega)
  simp only [List.append_nil] at hext
  rw [show tupLit t ++ rest = 40 :: (tupBody t ++ 41 :: rest) by
    simp [tupLit, List.append_assoc]]
  simp only [npio_ph_parse_shape_]
  simp only [ne_eq, not_true_eq_false, if_false]
  rw [hext]

theorem npioKeyOf_descr_at (x : Nat) (r : List Nat) :
    npioKeyOf (descrKeyB ++ x :: r) = some (.descr, x :: r) := by
  simp [npioKeyOf, descrKeyB, shapeKeyB, fortranKeyB]

theorem npioKeyOf_shape_at (x : Nat) (r : List Nat) :
    npioKeyOf (shapeKeyB ++ x :: r) = some (.shape, x :: r) := by
  simp [npioKeyOf, descrKeyB, shapeKeyB, fortranKeyB]

theorem npioKeyOf_fortran_at (x : Nat) (r : List Nat) :
    npioKeyOf (fortranKeyB ++ x :: r) = some (.fortran, x :: r) := by
  simp [npioKeyOf, descrKeyB, shapeKeyB, fortranKeyB]

theorem dictStep_descr (f : Nat) (h : NpioHeader) (v rest : List Nat)
    (hq : ∀ x ∈ v, x ≠ 39) :
    parseDictLoop (f + 1) h (pairDescr v ++ 44 :: rest)
      = parseDictLoop f { h with dtype := some v } rest := by
  rw [show pairDescr v ++ 44 :: rest
      = 39 :: (descrKeyB ++ 39 :: 58 :: 39 :: (v ++ 39 :: 44 :: rest)) by
    simp [pairDescr]]
  rw [parseDictLoop, skipSpaces_cons_of_nonspace 39 _ (by decide)]
  simp only
  rw [npioKeyOf_descr_at]
  simp only
  rw [npioProcessPair]
  simp only
  rw [skipSpaces_cons_of_nonspace 58 _ (by decide)]
  simp only
  rw [skipSpaces_cons_of_nonspace 39 _ (by decide)]
  simp only
  rw [spanNotByte_no_q 39 v hq (44 :: rest)]
  simp only
  rw [npioAfterValue, skipSpaces_cons_of_nonspace 44 _ (by decide)]
  simp only
  simp [npio_ph_is_quote_]

theorem dictStep_fortran_true (f : Nat) (h : NpioHeader) (rest : List Nat) :
    parseDictLoop (f + 1) h (pairFortran true ++ 44 :: rest)
      = parseDictLoop f { h with fortran_order := 1 } rest := by
  rw [show pairFortran true ++ 44 :: rest
      = 39 :: (fortranKeyB ++ 39 :: 58 :: (trueLitB ++ 44 :: rest)) by
    simp [pairFortran]]
  rw [parseDictLoop, skipSpaces_cons_of_nonspace 39 _ (by decide)]
  simp only
  rw [npioKeyOf_fortran_at 39 _]
  simp only
  rw [npioProcessPair]
  simp only
  rw [skipSpaces_cons_of_nonspace 58 _ (by decide)]
  simp only
  simp [npio_ph_is_quote_, trueLitB, falseLitB, npio_ph_skip_spaces_, isSpaceByte,
    npioAfterValue, List.take, List.drop]

theorem dictStep_fortran_false (f : Nat) (h : NpioHeader) (rest : List Nat) :
    parseDictLoop (f + 1) h (pairFortran false ++ 44 :: rest)
      = parseDictLoop f { h with fortran_order := 0 } rest := by
  rw [show pairFortran false ++ 44 :: rest
      = 39 :: (fortranKeyB ++ 39 :: 58 :: (falseLitB ++ 44 :: rest)) by
    simp [pairFortran]]
  rw [parseDictLoop, skipSpaces_cons_of_nonspace 39 _ (by decide)]
  simp only
  rw [npioKeyOf_fortran_at 39 _]
  simp only
  rw [npioProcessPair]
  simp only
  rw [skipSpaces_cons_of_nonspace 58 _ (by decide)]
  simp only
  simp [npio_ph_is_quote_, trueLitB, falseLitB, npio_ph_skip_spaces_, isSpaceByte,
    npioAfterValue, List.take, List.drop]

theorem dictStep_shape (f : Nat) (h : NpioHeader) (t rest : List Nat)
    (hv : ∀ v ∈ t, v < SZ) :
    parseDictLoop (f + 1) h (pairShape t ++ 44 :: rest)
      = parseDictLoop f
          { (t.foldl npio_ph_shape_append_
              { h with shapeCapacity := 8, shapeBuf := List.replicate 8 none }) with
            size := npio_array_size (t.foldl npio_ph_shape_append_
              { h with shapeCapacity := 8, shapeBuf := List.replicate 8 none }) } rest := by
  have hsk : npio_ph_skip_spaces_ (tupLit t ++ 44 :: rest) = tupLit t ++ 44 :: rest := by
    rw [show tupLit t ++ 44 :: rest = 40 :: ((tupBody t ++ [41]) ++ 44 :: rest) from by
      simp [tupLit]]
    exact skipSpaces_cons_of_nonspace 40 _ (by decide)
  rw [show pairShape t ++ 44 :: rest
      = 39 :: (shapeKeyB ++ 39 :: 58 :: (tupLit t ++ 44 :: rest)) by
    simp [pairShape]]
  rw [parseDictLoop, skipSpaces_cons_of_nonspace 39 _ (by decide)]
  simp only
  rw [npioKeyOf_shape_at 39 _]
  simp only
  rw [npioProcessPair]
  simp only
  rw [skipSpaces_cons_of_nonspace 58 _ (by decide)]
  simp only
  rw [hsk]
  rw [if_neg (by simp [tupLit] : ¬(tupLit t ++ 44 :: rest = []))]
  rw [npio_ph_parse_shape_canonical t h (44 :: rest) hv]
  simp only
  rw [npioAfterValue, skipSpaces_cons_of_nonspace 44 _ (by decide)]
  simp [npio_ph_is_quote_]

theorem dictStep_rbrace (f : Nat) (h : NpioHeader) (rest : List Nat) :
    parseDictLoop (f + 1) h (125 :: rest) = npio_ph_parse_dtype_ h := by
  rw [parseDictLoop, skipSpaces_cons_of_nonspace 125 _ (by decide)]
  simp


/-- The shape fold from a freshly reset 8-cell buffer: `dim` advances by
the tuple length from its *pre-existing* value, the written cells follow
the untouched prefix, and `dtype`/`fortran_order` are preserved. -/
theorem foldShape_reset (t : List Nat) (h : NpioHeader) (hdim : h.dim ≤ 8) :
    (t.foldl npio_ph_shape_append_
        { h with shapeCapacity := 8, shapeBuf := List.replicate 8 none }).dim
      = h.dim + t.length
    ∧ (t.foldl npio_ph_shape_append_
        { h with shapeCapacity := 8, shapeBuf := List.replicate 8 none }).shapeBuf.take
        (h.dim + t.length)
      = List.replicate h.dim none ++ t.map some
    ∧ (t.foldl npio_ph_shape_append_
        { h with shapeCapacity := 8, shapeBuf := List.replicate 8 none }).dtype = h.dtype
    ∧ (t.foldl npio_ph_shape_append_
        { h with shapeCapacity := 8, shapeBuf := List.replicate 8 none }).fortran_order
      = h.fortran_order := by
  obtain ⟨a1, a2, a3, a4, a5, a6, a7⟩ := foldShape_spec t
    { h with shapeCapacity := 8, shapeBuf := List.replicate 8 none }
    (by simpa using hdim) (by simp) (by norm_num)
  simp only at a1 a2 a6 a7
  refine ⟨a1, ?_, a6, a7⟩
  rw [a2, List.take_replicate, Nat.min_eq_left hdim]

/-- `npio_ph_parse_dtype_` on the stored dtype `<i2`: little-endian,
signed, non-floating, 16-bit. -/
theorem parse_dtype_i2 (h : NpioHeader) (hdty : h.dtype = some [60, 105, 50]) :
    npio_ph_parse_dtype_ h
      = .ok { h with
              little_endian := 1, is_signed := 1, floating_point := 0, bit_width := 16 } := by
  rw [npio_ph_parse_dtype_, hdty]
  simp [strlenB]

/-- C5 (amended): later occurrences of `descr` and `fortran_order` do
overwrite the earlier value, but a second `shape` key does *not* replace
the first tuple: `npio_ph_parse_shape_` reallocates the buffer without
resetting `dim`, so the final `dim` is the *sum* of the two tuple
lengths and the first `t1.length` cells of the shape are uninitialized
fresh memory, followed by the second tuple's values.  (The bound
`t1.length ≤ 8` keeps the C code inside the reallocated buffer; beyond
it the second pass writes out of bounds.) -/
theorem C5_duplicate_keys (d1 t1 t2 : List Nat)
    (hd : ∀ x ∈ d1, x ≠ 39) (hv1 : ∀ v ∈ t1, v < SZ) (hv2 : ∀ v ∈ t2, v < SZ)
    (hlen : t1.length ≤ 8) :
    ∃ hf, npio_ph_parse_dict_ (npio_init_array true).hdr (twoShapeHdr d1 t1 t2) = .ok hf
      ∧ hf.dim = t1.length + t2.length
      ∧ hf.shapeBuf.take hf.dim = List.replicate t1.length none ++ t2.map some
      ∧ hf.dtype = some [60, 105, 50] ∧ hf.fortran_order = 0 ∧ hf.bit_width = 16
      ∧ hf.floating_point = 0 ∧ hf.is_signed = 1 ∧ hf.little_endian = 1 := by
  let B1 : NpioHeader :=
    { (npio_init_array true).hdr with dtype := some d1, fortran_order := 1 }
  let RB : NpioHeader := t1.foldl npio_ph_shape_append_
    { B1 with shapeCapacity := 8, shapeBuf := List.replicate 8 none }
  let E1 : NpioHeader :=
    { RB with size := npio_array_size RB, dtype := some [60, 105, 50], fortran_order := 0 }
  let RE : NpioHeader := t2.foldl npio_ph_shape_append_
    { E1 with shapeCapacity := 8, shapeBuf := List.replicate 8 none }
  let HF : NpioHeader := { RE with size := npio_array_size RE }
  have hloop : parseDictLoop (6 + 1) (npio_init_array true).hdr
      (pairDescr d1 ++ 44 :: (pairFortran true ++ 44 :: (pairShape t1 ++ 44 ::
        (pairDescr [60, 105, 50] ++ 44 :: (pairFortran false ++ 44 ::
          (pairShape t2 ++ [44, 125])))))) = npio_ph_parse_dtype_ HF :=
    (dictStep_descr 6 (npio_init_array true).hdr d1 _ hd).trans
    ((dictStep_fortran_true 5 _ _).trans
    ((dictStep_shape 4 _ t1 _ hv1).trans
    ((dictStep_descr 3 _ [60, 105, 50] _ (by decide)).trans
    ((dictStep_fortran_false 2 _ _).trans
    ((dictStep_shape 1 _ t2 _ hv2).trans
    (dictStep_rbrace 0 _ []))))))
  have a1 : RB.dim = 0 + t1.length := (foldShape_reset t1 B1 (Nat.zero_le 8)).1
  rw [Nat.zero_add] at a1
  have hed : E1.dim = t1.length := a1
  have hb := foldShape_reset t2 E1 (by show RB.dim ≤ 8; rw [a1]; exact hlen)
  have b1 : RE.dim = E1.dim + t2.length := hb.1
  have b2 : RE.shapeBuf.take (E1.dim + t2.length)
      = List.replicate E1.dim none ++ t2.map some := hb.2.1
  rw [hed] at b1 b2
  have b3 : RE.dtype = E1.dtype := hb.2.2.1
  have b4 : RE.fortran_order = E1.fortran_order := hb.2.2.2
  have hdty : HF.dtype = some [60, 105, 50] :=
    (show HF.dtype = RE.dtype from rfl).trans
      (b3.trans (show E1.dtype = some [60, 105, 50] from rfl))
  have hdt := parse_dtype_i2 HF hdty
  have hok := hloop.trans hdt
  have hbig := parseDictLoop_ext [] (6 + 1)
    ((pairDescr d1 ++ 44 :: (pairFortran true ++ 44 :: (pairShape t1 ++ 44 ::
      (pairDescr [60, 105, 50] ++ 44 :: (pairFortran false ++ 44 ::
        (pairShape t2 ++ [44, 125])))))).length + 1) _ _ _ hok
    (by simp only [List.length_append, List.length_cons, List.length_nil]; omega)
  simp only [List.append_nil] at hbig
  refine ⟨{ HF with
            little_endian := 1, is_signed := 1, floating_point := 0, bit_width := 16 },
    ?_, ?_, ?_, ?_, ?_, ?_, ?_, ?_, ?_⟩
  · rw [twoShapeHdr, npio_ph_parse_dict_]
    rw [if_neg (by decide : ¬((123 : Nat) ≠ 123))]
    exact hbig
  · show RE.dim = t1.length + t2.length
    exact b1
  · show RE.shapeBuf.take RE.dim = _
    rw [b1]
    exact b2
  · exact hdty
  · exact b4.trans (show E1.fortran_order = 0 from rfl)
  · rfl
  · rfl
  · rfl
  · rfl

/-- Witness for `C5_duplicate_keys`: the dictionary with `shape` keys
`(7,)` then `(5, 2)` parses to `dim = 3` with shape cells
`[uninitialized, 5, 2]`. -/
theorem C5_duplicate_keys_witness :
    ∃ hf, npio_ph_parse_dict_ (npio_init_array true).hdr (twoShapeHdr [120] [7] [5, 2])
        = .ok hf
      ∧ hf.dim = [7].length + [5, 2].length
      ∧ hf.shapeBuf.take hf.dim
        = List.replicate [7].length none ++ [5, 2].map some
      ∧ hf.dtype = some [60, 105, 50] ∧ hf.fortran_order = 0 ∧ hf.bit_width = 16
      ∧ hf.floating_point = 0 ∧ hf.is_signed = 1 ∧ hf.little_endian = 1 :=
  C5_duplicate_keys [120] [7] [5, 2] (by decide) (by decide) (by decide) (by decide)
